import Mathlib

/-
Verification of convertmysqldump.py, a streaming MySQLdump transformer
that rewrites MyISAM engine declarations to InnoDB while leaving
excluded schemas untouched.

Lines are modelled as lists of characters.  The three compiled regular
expressions of the script are embedded as executable functions on
character lists; case folding uses Char.toUpper, which agrees with the
Python behaviour on the ASCII range the script manipulates, and the
word-character class is the ASCII reading of the regex class.
-/

/-- The backtick character (code 96), the identifier delimiter in the
CREATE DATABASE and CREATE TABLE patterns. -/
def tick : Char := Char.ofNat 96

/-- Uppercasing of a character list, modelling str.upper and the
IGNORECASE matching of the compiled patterns. -/
def upStr (s : List Char) : List Char := s.map Char.toUpper

/-- Word characters, modelling the regex class of word constituents. -/
def isWordChar (c : Char) : Bool := c.isAlphanum || c = '_'

/-- The source engine token MyISAM, uppercased. -/
def myisamU : List Char := ['M', 'Y', 'I', 'S', 'A', 'M']

/-- The replacement text written by the substitution. -/
def innoDB : List Char := ['I', 'n', 'n', 'o', 'D', 'B']

/-- Does a case-insensitive occurrence of MyISAM start at the head of s? -/
def startsMyISAM (s : List Char) : Bool := decide (upStr (s.take 6) = myisamU)

/-- myisam_re.search: unanchored case-insensitive search for MyISAM. -/
def myisam_re_search : List Char → Bool
  | [] => false
  | c :: cs => startsMyISAM (c :: cs) || myisam_re_search cs

/-- myisam_re.sub with replacement InnoDB: replaces every left-to-right
non-overlapping case-insensitive occurrence of MyISAM, leaving every
other character unchanged. -/
def myisam_re_sub : List Char → List Char
  | [] => []
  | c1 :: c2 :: c3 :: c4 :: c5 :: c6 :: rest =>
    if upStr [c1, c2, c3, c4, c5, c6] = myisamU then
      innoDB ++ myisam_re_sub rest
    else
      c1 :: myisam_re_sub (c2 :: c3 :: c4 :: c5 :: c6 :: rest)
  | c :: rest => c :: myisam_re_sub rest

/-- Attempt to read an identifier just after an opening backtick: a
maximal nonempty run of word characters immediately followed by the
closing backtick, as in the group sequence of the marker patterns. -/
def matchNameAt (s : List Char) : Option (List Char) :=
  if s.takeWhile isWordChar ≠ [] ∧
      (s.drop (s.takeWhile isWordChar).length).head? = some tick then
    some (s.takeWhile isWordChar)
  else none

/-- Scan for the rightmost opening backtick at which matchNameAt
succeeds; the greedy leading group of the marker patterns prefers the
latest such position. -/
def scanTicks : List Char → Option (List Char)
  | [] => none
  | c :: cs =>
    match scanTicks cs with
    | some w => some w
    | none => if c = tick then matchNameAt cs else none

/-- Remove one trailing newline: the end anchor of the patterns also
matches just before a final newline. -/
def stripNL (s : List Char) : List Char :=
  if s.getLast? = some '\n' then s.dropLast else s

/-- Case-insensitive prefix test for the anchored literal keyword part
of the marker patterns. -/
def startsWithCI (pre s : List Char) : Bool :=
  decide (upStr (s.take pre.length) = upStr pre)

/-- Search with one of the two anchored marker patterns: the line must
start with the keyword literal, and the captured identifier is the one
at the rightmost backtick position admitting a match, mirroring greedy
backtracking.  A dot in the pattern never matches a newline, so an
interior newline defeats the match. -/
def markerSearch (pre line : List Char) : Option (List Char) :=
  if startsWithCI pre (stripNL line) = true ∧ '\n' ∉ stripNL line then
    scanTicks ((stripNL line).drop pre.length)
  else none

/-- The literal keyword part of database_re. -/
def createDatabaseLit : List Char := "CREATE DATABASE".toList

/-- The literal keyword part of table_re. -/
def createTableLit : List Char := "CREATE TABLE".toList

/-- database_re.search on a line, returning the captured schema name. -/
def database_re_search (line : List Char) : Option (List Char) :=
  markerSearch createDatabaseLit line

/-- table_re.search on a line, returning the captured table name. -/
def table_re_search (line : List Char) : Option (List Char) :=
  markerSearch createTableLit line

/-- The mutable state of the ProcessFiles loop: the most recently
discovered database, the exclusion flag (initially true), the local
variable table of the loop body (none while still unbound), the two
counters, and the sequence of lines written to the output file. -/
structure PState where
  database : Option (List Char)
  isexcluded : Bool
  table : Option (List Char)
  changed : Nat
  preserved : Nat
  out : List (List Char)
deriving DecidableEq

/-- The state on entry to the loop. -/
def initState : PState := ⟨none, true, none, 0, 0, []⟩

/-- The two marker searches of the loop body.  Returns none when the
table branch dereferences a null database: with no database marker seen
yet, computing the exclusion flag there raises. -/
def updMarkers (excluded : List (List Char)) (s : PState) (line : List Char) :
    Option PState :=
  let s1 :=
    match database_re_search line with
    | some name =>
      { s with database := some name, isexcluded := excluded.contains (upStr name) }
    | none => s
  match table_re_search line with
  | some tname =>
    match s1.database with
    | some db =>
      some { s1 with table := some tname, isexcluded := excluded.contains (upStr db) }
    | none => none
  | none => some s1

/-- The write phase of the loop body.  In the substitution branch the
diagnostic message evaluates the local variable table before the
converted line is written; when no table marker has ever bound it that
evaluation fails and nothing is emitted. -/
def writeLine (s : PState) (line : List Char) : Option PState :=
  if !s.isexcluded && myisam_re_search line then
    match s.table with
    | some _ =>
      some { s with out := s.out ++ [myisam_re_sub line], changed := s.changed + 1 }
    | none => none
  else
    some { s with out := s.out ++ [line], preserved := s.preserved + 1 }

/-- One iteration of the enumerate loop. -/
def step (excluded : List (List Char)) (s : PState) (line : List Char) :
    Option PState :=
  (updMarkers excluded s line).bind fun s2 => writeLine s2 line

/-- The whole loop, threading the state through the stream. -/
def runLines (excluded : List (List Char)) (s : PState) :
    List (List Char) → Option PState
  | [] => some s
  | l :: ls => (step excluded s l).bind fun s2 => runLines excluded s2 ls

/-- ProcessFiles: run the loop and then report the final summary, whose
line count reads the loop variable after the loop; on an empty stream
that variable was never bound and the report fails. -/
def ProcessFiles (excluded : List (List Char)) (lines : List (List Char)) :
    Option (PState × Nat) :=
  (runLines excluded initState lines).bind fun s =>
    match lines.length with
    | 0 => none
    | Nat.succ n => some (s, n + 1)

/-- Observable outcome of the surrounding script run. -/
structure MainResult where
  errorReported : Bool
  inputOpened : Bool
  outputOpened : Bool
  outputClobbered : Bool
  exitCode : Nat
deriving DecidableEq

/-- The guard of the script entry point: when the output path exists and
force is not set, an error is logged and the script falls off the end of
the module without opening either file and without arranging a nonzero
exit status; otherwise both files are opened, the output truncated, and
the stream is processed. -/
def mainGuard (outputExists force : Bool) : MainResult :=
  if outputExists && !force then
    { errorReported := true, inputOpened := false, outputOpened := false,
      outputClobbered := false, exitCode := 0 }
  else
    { errorReported := false, inputOpened := true, outputOpened := true,
      outputClobbered := true, exitCode := 0 }

/-- Specification-side description of a complete engine-token
substitution, stated from the words of the spec: the output is the input
with every case-insensitive occurrence of the source token replaced by
the literal InnoDB and every other character kept verbatim, scanning
left to right. -/
inductive ReplacesAll : List Char → List Char → Prop
  | nil : ReplacesAll [] []
  | keep (c : Char) (l o : List Char) :
      upStr ((c :: l).take 6) ≠ myisamU → ReplacesAll l o →
      ReplacesAll (c :: l) (c :: o)
  | subst (m l o : List Char) :
      upStr m = myisamU → ReplacesAll l o → ReplacesAll (m ++ l) (innoDB ++ o)

/-- The default exclusion set of the script entry point, uppercased on
the way into ProcessFiles. -/
def defaultExcluded : List (List Char) := ["mysql".toList].map upStr

/-- Scenario input: a database marker for a schema outside the exclusion
set, followed by an engine declaration line. -/
def scenarioALines : List (List Char) :=
  ["CREATE DATABASE `appdb`;\n".toList, ") ENGINE=MyISAM;\n".toList]

/-- Scenario input used against claim C3: a non-excluded schema marker
followed by a MyISAM line, with no table marker anywhere. -/
def scenarioShopLines : List (List Char) :=
  ["CREATE DATABASE `shop`;\n".toList, "x MyISAM y;\n".toList]

/-- Scenario input: an excluded schema marker followed by an engine
declaration line. -/
def scenarioBLines : List (List Char) :=
  ["CREATE DATABASE `mysql`;\n".toList, ") ENGINE=MyISAM;\n".toList]

/-- Simulation relation between the loop states of a first and a second
run of the transformer, used for the idempotence claim: whenever the
first run sits in an excluded scope the second run sits in the same
scope, the two runs agree on whether any schema has been seen, and each
exclusion flag agrees with the membership test of its current schema
name. -/
def SimInv (E : List (List Char)) (s1 s2 : PState) : Prop :=
  (s1.isexcluded = true → s2.isexcluded = true ∧ s2.database = s1.database) ∧
  (s1.database = none ↔ s2.database = none) ∧
  (∀ d, s1.database = some d → s1.isexcluded = E.contains (upStr d)) ∧
  (∀ d, s2.database = some d → s2.isexcluded = E.contains (upStr d))

theorem upStr_length (s : List Char) : (upStr s).length = s.length := by
  simp [upStr]

theorem upStr_append (a b : List Char) : upStr (a ++ b) = upStr a ++ upStr b := by
  simp [upStr]

theorem upStr_cons (c : Char) (s : List Char) :
    upStr (c :: s) = c.toUpper :: upStr s := rfl

theorem startsMyISAM_iff {s : List Char} :
    startsMyISAM s = true ↔ upStr (s.take 6) = myisamU := by
  simp [startsMyISAM]

theorem startsMyISAM_length {s : List Char} (h : startsMyISAM s = true) :
    6 ≤ s.length := by
  rw [startsMyISAM_iff] at h
  have hl := congrArg List.length h
  simp [upStr, myisamU] at hl
  omega

theorem startsMyISAM_head {c : Char} {cs : List Char}
    (h : startsMyISAM (c :: cs) = true) : c.toUpper = 'M' := by
  rw [startsMyISAM_iff] at h
  simp [List.take_succ_cons, upStr_cons, myisamU] at h
  exact h.1

theorem startsMyISAM_false_of_head {c : Char} (cs : List Char)
    (h : c.toUpper ≠ 'M') : startsMyISAM (c :: cs) = false := by
  cases hs : startsMyISAM (c :: cs) with
  | true => exact absurd (startsMyISAM_head hs) h
  | false => rfl

theorem isLower_of_toNat {c : Char} (h1 : 97 ≤ c.toNat) (h2 : c.toNat ≤ 122) :
    c.isLower = true := by
  simp [Char.isLower, UInt32.le_def, BitVec.le_def]
  simp [Char.toNat, UInt32.toNat] at h1 h2
  omega

theorem toUpper_cases (c : Char) : c.toUpper = c ∨ isWordChar c = true := by
  by_cases hr : c.toNat ≥ 97 ∧ c.toNat ≤ 122
  · right
    simp [isWordChar, Char.isAlphanum, Char.isAlpha,
      isLower_of_toNat hr.1 hr.2]
  · left
    simp [Char.toUpper, hr]

theorem word_of_toUpper_mem {c : Char} (h : c.toUpper ∈ myisamU) :
    isWordChar c = true := by
  rcases toUpper_cases c with he | hw
  · rw [he] at h
    simp [myisamU] at h
    rcases h with h | h | h | h | h | h <;> subst h <;> decide
  · exact hw

theorem word_of_toUpper_eq {c d : Char} (h : c.toUpper = d)
    (hd : isWordChar d = true) : isWordChar c = true := by
  rcases toUpper_cases c with he | hw
  · obtain rfl : c = d := he.symm.trans h
    exact hd
  · exact hw

theorem sub_cons (c : Char) (cs : List Char) :
    myisam_re_sub (c :: cs) =
      if startsMyISAM (c :: cs) = true then innoDB ++ myisam_re_sub (cs.drop 5)
      else c :: myisam_re_sub cs := by
  match c, cs with
  | c1, c2 :: c3 :: c4 :: c5 :: c6 :: rest =>
    by_cases h : upStr [c1, c2, c3, c4, c5, c6] = myisamU
    · simp [myisam_re_sub, startsMyISAM, h, List.drop]
    · simp [myisam_re_sub, startsMyISAM, h, List.drop]
  | c, [] => simp [myisam_re_sub, startsMyISAM, upStr, myisamU]
  | c, [c2] => simp [myisam_re_sub, startsMyISAM, upStr, myisamU]
  | c, [c2, c3] => simp [myisam_re_sub, startsMyISAM, upStr, myisamU]
  | c, [c2, c3, c4] => simp [myisam_re_sub, startsMyISAM, upStr, myisamU]
  | c, [c2, c3, c4, c5] => simp [myisam_re_sub, startsMyISAM, upStr, myisamU]

theorem sub_length (l : List Char) : (myisam_re_sub l).length = l.length := by
  match l with
  | [] => rfl
  | c :: cs =>
    rw [sub_cons]
    by_cases h : startsMyISAM (c :: cs) = true
    · have h6 : 6 ≤ (c :: cs).length := startsMyISAM_length h
      have ih := sub_length (cs.drop 5)
      simp [h, ih, innoDB, List.length_drop]
      simp at h6
      omega
    · have ih := sub_length cs
      simp [h, ih]
termination_by l.length
decreasing_by
  · simp [List.length_drop]
    omega
  · simp

theorem mem_of_getLast_some {l : List Char} {a : Char}
    (h : l.getLast? = some a) : a ∈ l := by
  rw [List.getLast?_eq_getElem?] at h
  rcases List.getElem?_eq_some.mp h with ⟨hi, he⟩
  exact he ▸ List.getElem_mem hi

theorem sub_match {l : List Char} (h : startsMyISAM l = true) :
    myisam_re_sub l = innoDB ++ myisam_re_sub (l.drop 6) := by
  match l with
  | [] => simp [startsMyISAM, upStr, myisamU] at h
  | c :: cs =>
    rw [sub_cons, if_pos h]
    rfl

theorem sub_keep {c : Char} {cs : List Char} (h : startsMyISAM (c :: cs) = false) :
    myisam_re_sub (c :: cs) = c :: myisam_re_sub cs := by
  rw [sub_cons, if_neg (by simp [h])]

theorem block_upper_mem {l : List Char} (h : startsMyISAM l = true)
    {x : Char} (hx : x ∈ l.take 6) : x.toUpper ∈ myisamU := by
  rw [startsMyISAM_iff] at h
  rw [← h]
  exact List.mem_map_of_mem Char.toUpper hx

theorem block_word {l : List Char} (h : startsMyISAM l = true)
    {x : Char} (hx : x ∈ l.take 6) : isWordChar x = true :=
  word_of_toUpper_mem (block_upper_mem h hx)

theorem block_no_tick {l : List Char} (h : startsMyISAM l = true)
    {x : Char} (hx : x ∈ l.take 6) : x ≠ tick := by
  intro he
  subst he
  have := block_upper_mem h hx
  simp [tick, myisamU] at this

theorem block_no_nl {l : List Char} (h : startsMyISAM l = true)
    {x : Char} (hx : x ∈ l.take 6) : x ≠ '\n' := by
  intro he
  subst he
  have := block_upper_mem h hx
  simp [myisamU] at this

theorem sub_eq_nil_iff {l : List Char} : myisam_re_sub l = [] ↔ l = [] := by
  constructor
  · intro h
    have hl := congrArg List.length h
    rw [sub_length] at hl
    simp at hl
    exact hl
  · intro h
    subst h
    rfl

theorem sub_nl_mem (l : List Char) : '\n' ∈ myisam_re_sub l ↔ '\n' ∈ l := by
  match l with
  | [] => simp [myisam_re_sub]
  | c :: cs =>
    by_cases hs : startsMyISAM (c :: cs) = true
    · rw [sub_match hs]
      have ih := sub_nl_mem ((c :: cs).drop 6)
      constructor
      · intro hm
        rcases List.mem_append.mp hm with hm | hm
        · exact absurd hm (by decide)
        · exact List.mem_of_mem_drop (ih.mp hm)
      · intro hm
        have hsplit := List.take_append_drop 6 (c :: cs)
        rw [← hsplit] at hm
        rcases List.mem_append.mp hm with hm | hm
        · exact absurd rfl (block_no_nl hs hm)
        · exact List.mem_append_right _ (ih.mpr hm)
    · rw [sub_keep (by simpa using hs)]
      have ih := sub_nl_mem cs
      simp [ih]
termination_by l.length
decreasing_by
  · simp [List.length_drop]
    omega
  · simp

theorem starts_append_nl (u : List Char) :
    startsMyISAM (u ++ ['\n']) = startsMyISAM u := by
  by_cases h6 : 6 ≤ u.length
  · have : (u ++ ['\n']).take 6 = u.take 6 := by
      rw [List.take_append_eq_append_take]
      have : 6 - u.length = 0 := by omega
      simp [this]
    simp [startsMyISAM, this]
  · have hfu : startsMyISAM u = false := by
      cases hs : startsMyISAM u with
      | true => exact absurd (startsMyISAM_length hs) h6
      | false => rfl
    rw [hfu]
    cases hs : startsMyISAM (u ++ ['\n']) with
    | false => rfl
    | true =>
      exfalso
      have hnl : ('\n' : Char) ∈ (u ++ ['\n']).take 6 := by
        rw [List.take_append_eq_append_take]
        refine List.mem_append_right _ ?_
        have : 1 ≤ 6 - u.length := by omega
        rcases Nat.exists_eq_add_of_le this with ⟨k, hk⟩
        rw [hk, Nat.add_comm]
        simp
      exact absurd rfl (block_no_nl hs hnl)

theorem sub_append_nl (u : List Char) :
    myisam_re_sub (u ++ ['\n']) = myisam_re_sub u ++ ['\n'] := by
  match u with
  | [] =>
    rw [List.nil_append, sub_cons]
    simp [startsMyISAM_false_of_head _ (by decide : ('\n' : Char).toUpper ≠ 'M'),
      myisam_re_sub]
  | c :: cs =>
    by_cases hs : startsMyISAM (c :: cs) = true
    · have hs2 : startsMyISAM ((c :: cs) ++ ['\n']) = true := by
        rw [starts_append_nl]; exact hs
      rw [sub_match hs2, sub_match hs]
      have h6 : 6 ≤ (c :: cs).length := startsMyISAM_length hs
      have hd : ((c :: cs) ++ ['\n']).drop 6 = (c :: cs).drop 6 ++ ['\n'] := by
        rw [List.drop_append_eq_append_drop]
        have h5 : 5 - cs.length = 0 := by
          simp at h6
          omega
        simp [h5]
      rw [hd, sub_append_nl ((c :: cs).drop 6)]
      simp
    · have hs2 : startsMyISAM ((c :: cs) ++ ['\n']) = false := by
        rw [starts_append_nl]; simpa using hs
      have hcons : (c :: cs) ++ ['\n'] = c :: (cs ++ ['\n']) := by simp
      rw [hcons, sub_keep (by rw [← hcons]; exact hs2), sub_append_nl cs,
        sub_keep (by simpa using hs)]
      simp
termination_by u.length
decreasing_by
  · simp [List.length_drop]
    omega
  · simp

theorem sub_getLast_nl (l : List Char) :
    (myisam_re_sub l).getLast? = some '\n' ↔ l.getLast? = some '\n' := by
  match l with
  | [] => simp [myisam_re_sub]
  | c :: cs =>
    by_cases hs : startsMyISAM (c :: cs) = true
    · rw [sub_match hs]
      by_cases hd : (c :: cs).drop 6 = []
      · rw [hd]
        have h1 : (innoDB ++ myisam_re_sub []).getLast? = some 'B' := by decide
        rw [h1]
        constructor
        · intro h; exact absurd h (by decide)
        · intro h
          exfalso
          have hm : '\n' ∈ (c :: cs) := mem_of_getLast_some h
          have hsplit := List.take_append_drop 6 (c :: cs)
          rw [← hsplit, hd, List.append_nil] at hm
          exact absurd rfl (block_no_nl hs hm)
      · have hd2 : myisam_re_sub ((c :: cs).drop 6) ≠ [] := fun he =>
          hd (sub_eq_nil_iff.mp he)
        have e1 : (innoDB ++ myisam_re_sub ((c :: cs).drop 6)).getLast? =
            (myisam_re_sub ((c :: cs).drop 6)).getLast? := by
          rw [List.getLast?_append, Option.or_of_isSome (List.getLast?_isSome.mpr hd2)]
        have e2 : (c :: cs).getLast? = ((c :: cs).drop 6).getLast? := by
          conv_lhs => rw [← List.take_append_drop 6 (c :: cs)]
          rw [List.getLast?_append, Option.or_of_isSome (List.getLast?_isSome.mpr hd)]
        rw [e1, e2]
        exact sub_getLast_nl ((c :: cs).drop 6)
    · rw [sub_keep (by simpa using hs)]
      match cs with
      | [] => simp [myisam_re_sub]
      | d :: ds =>
        have hd2 : myisam_re_sub (d :: ds) ≠ [] := fun he => by
          simp [sub_eq_nil_iff] at he
        rcases List.exists_cons_of_ne_nil hd2 with ⟨y, ys, hy⟩
        rw [hy, List.getLast?_cons_cons, ← hy, List.getLast?_cons_cons]
        exact sub_getLast_nl (d :: ds)
termination_by l.length
decreasing_by
  · simp [List.length_drop]
    omega
  · simp

theorem stripNL_sub (l : List Char) :
    stripNL (myisam_re_sub l) = myisam_re_sub (stripNL l) := by
  by_cases h : l.getLast? = some '\n'
  · have h2 : (myisam_re_sub l).getLast? = some '\n' := (sub_getLast_nl l).mpr h
    rw [stripNL, if_pos h2, stripNL, if_pos h]
    have hl : l.dropLast ++ ['\n'] = l := List.dropLast_append_getLast? '\n' h
    conv_lhs => rw [← hl]
    rw [sub_append_nl, List.dropLast_concat]
  · have h2 : ¬(myisam_re_sub l).getLast? = some '\n' := fun hc =>
      h ((sub_getLast_nl l).mp hc)
    rw [stripNL, if_neg h2, stripNL, if_neg h]

theorem starts_of_starts_prefix {c : Char} {p cs : List Char} (hp : p <+: cs)
    (h : startsMyISAM (c :: p) = true) : startsMyISAM (c :: cs) = true := by
  have h5 : 5 ≤ p.length := by
    have := startsMyISAM_length h
    simp at this
    omega
  rw [startsMyISAM_iff] at h ⊢
  rw [List.take_succ_cons] at h ⊢
  obtain ⟨t, rfl⟩ := hp
  rw [List.take_append_eq_append_take]
  have h0 : 5 - p.length = 0 := by omega
  simp [h0]
  simpa using h

theorem sub_head_nonword {c : Char} (r : List Char) (h : isWordChar c = false) :
    myisam_re_sub (c :: r) = c :: myisam_re_sub r := by
  apply sub_keep
  cases hs : startsMyISAM (c :: r) with
  | false => rfl
  | true =>
    have hm := startsMyISAM_head hs
    have := word_of_toUpper_eq hm (by decide)
    rw [this] at h
    exact absurd h (by simp)

theorem sub_allWord {w : List Char} (h : ∀ x ∈ w, isWordChar x = true) :
    ∀ x ∈ myisam_re_sub w, isWordChar x = true := by
  match w with
  | [] => simp [myisam_re_sub]
  | c :: cs =>
    by_cases hs : startsMyISAM (c :: cs) = true
    · rw [sub_match hs]
      intro x hx
      rcases List.mem_append.mp hx with hx | hx
      · revert hx
        have : ∀ x ∈ innoDB, isWordChar x = true := by decide
        exact this x
      · exact sub_allWord (fun y hy => h y (List.mem_of_mem_drop hy)) x hx
    · rw [sub_keep (by simpa using hs)]
      intro x hx
      rcases List.mem_cons.mp hx with hx | hx
      · exact hx ▸ h c (List.mem_cons_self c cs)
      · exact sub_allWord (fun y hy => h y (List.mem_cons_of_mem c hy)) x hx
termination_by w.length
decreasing_by
  · simp [List.length_drop]
    omega
  · simp

theorem takeWhile_append_all {w : List Char} (r : List Char)
    (hw : ∀ x ∈ w, isWordChar x = true) :
    (w ++ r).takeWhile isWordChar = w ++ r.takeWhile isWordChar := by
  induction w with
  | nil => rfl
  | cons c w ih =>
    rw [List.cons_append, List.takeWhile_cons_of_pos (hw c (by simp)),
      ih fun x hx => hw x (by simp [hx])]
    rfl

theorem dropWhile_append_all {w : List Char} (r : List Char)
    (hw : ∀ x ∈ w, isWordChar x = true) :
    (w ++ r).dropWhile isWordChar = r.dropWhile isWordChar := by
  induction w with
  | nil => rfl
  | cons c w ih =>
    rw [List.cons_append, List.dropWhile_cons_of_pos (hw c (by simp)),
      ih fun x hx => hw x (by simp [hx])]

theorem starts_append_block {m : List Char} (x : List Char) (hm : m.length = 6)
    (hu : upStr m = myisamU) : startsMyISAM (m ++ x) = true := by
  rw [startsMyISAM_iff, List.take_append_eq_append_take, hm]
  simp [List.take_of_length_le (le_of_eq hm), hu]

theorem sub_append_block {m : List Char} (x : List Char) (hm : m.length = 6)
    (hu : upStr m = myisamU) :
    myisam_re_sub (m ++ x) = innoDB ++ myisam_re_sub x := by
  rw [sub_match (starts_append_block x hm hu)]
  congr 1
  rw [List.drop_append_eq_append_drop, hm]
  simp [List.drop_of_length_le (le_of_eq hm)]

theorem sub_wordSplit (v : List Char) :
    myisam_re_sub v =
      myisam_re_sub (v.takeWhile isWordChar) ++
        myisam_re_sub (v.dropWhile isWordChar) := by
  match v with
  | [] => rfl
  | c :: cs =>
    by_cases hw : isWordChar c = true
    · by_cases hs : startsMyISAM (c :: cs) = true
      · have h6 : 6 ≤ (c :: cs).length := startsMyISAM_length hs
        have hm6 : ((c :: cs).take 6).length = 6 := by
          simp at h6
          simp [List.length_take]
          omega
        have hmw : ∀ x ∈ (c :: cs).take 6, isWordChar x = true :=
          fun x hx => block_word hs hx
        have hsplit : (c :: cs).take 6 ++ (c :: cs).drop 6 = c :: cs :=
          List.take_append_drop 6 (c :: cs)
        have htw : (c :: cs).takeWhile isWordChar =
            (c :: cs).take 6 ++ ((c :: cs).drop 6).takeWhile isWordChar := by
          conv_lhs => rw [← hsplit]
          exact takeWhile_append_all _ hmw
        have hdw : (c :: cs).dropWhile isWordChar =
            ((c :: cs).drop 6).dropWhile isWordChar := by
          conv_lhs => rw [← hsplit]
          exact dropWhile_append_all _ hmw
        rw [sub_match hs, htw, hdw,
          sub_append_block _ hm6 (startsMyISAM_iff.mp hs),
          sub_wordSplit ((c :: cs).drop 6), List.append_assoc]
      · have hsf : startsMyISAM (c :: cs.takeWhile isWordChar) = false := by
          cases hx : startsMyISAM (c :: cs.takeWhile isWordChar) with
          | false => rfl
          | true =>
            have := starts_of_starts_prefix (List.takeWhile_prefix isWordChar) hx
            rw [this] at hs
            exact absurd rfl hs
        rw [List.takeWhile_cons_of_pos hw, List.dropWhile_cons_of_pos hw,
          sub_keep (by simpa using hs), sub_keep hsf, List.cons_append,
          sub_wordSplit cs]
    · have hwf : ¬ isWordChar c = true := by simpa using hw
      rw [List.takeWhile_cons_of_neg hwf, List.dropWhile_cons_of_neg hwf]
      rfl
termination_by v.length
decreasing_by
  · simp [List.length_drop]
    omega
  · simp

theorem dropWhile_head_nonword {v : List Char} {d : Char} {r : List Char}
    (h : v.dropWhile isWordChar = d :: r) : isWordChar d = false := by
  have hh := List.head?_dropWhile_not isWordChar v
  rw [h] at hh
  simpa using hh

theorem sub_dropWhileRun (v : List Char) :
    (myisam_re_sub (v.dropWhile isWordChar)).head? =
      (v.dropWhile isWordChar).head? := by
  cases hd : v.dropWhile isWordChar with
  | nil => rfl
  | cons d r =>
    rw [sub_head_nonword r (dropWhile_head_nonword hd)]
    rfl

theorem takeWhile_sub (v : List Char) :
    (myisam_re_sub v).takeWhile isWordChar =
      myisam_re_sub (v.takeWhile isWordChar) := by
  have hw : ∀ x ∈ myisam_re_sub (v.takeWhile isWordChar), isWordChar x = true :=
    sub_allWord fun x hx => List.mem_takeWhile_imp hx
  rw [sub_wordSplit v, takeWhile_append_all _ hw]
  have h2 : (myisam_re_sub (v.dropWhile isWordChar)).takeWhile isWordChar = [] := by
    cases hd : v.dropWhile isWordChar with
    | nil => rfl
    | cons d r =>
      rw [sub_head_nonword r (dropWhile_head_nonword hd),
        List.takeWhile_cons_of_neg (by simp [dropWhile_head_nonword hd])]
  rw [h2, List.append_nil]

theorem drop_takeWhile_length (v : List Char) :
    v.drop (v.takeWhile isWordChar).length = v.dropWhile isWordChar := by
  induction v with
  | nil => rfl
  | cons c cs ih =>
    by_cases hw : isWordChar c = true
    · rw [List.takeWhile_cons_of_pos hw, List.dropWhile_cons_of_pos hw]
      simpa using ih
    · rw [List.takeWhile_cons_of_neg (by simpa using hw),
        List.dropWhile_cons_of_neg (by simpa using hw)]
      rfl

theorem matchNameAt_iso (v : List Char) :
    (matchNameAt (myisam_re_sub v)).isSome = (matchNameAt v).isSome := by
  have hnil : (myisam_re_sub v).takeWhile isWordChar = [] ↔
      v.takeWhile isWordChar = [] := by
    rw [takeWhile_sub, sub_eq_nil_iff]
  have hdrop :
      ((myisam_re_sub v).drop ((myisam_re_sub v).takeWhile isWordChar).length).head? =
      (v.drop (v.takeWhile isWordChar).length).head? := by
    simp only [drop_takeWhile_length]
    have hdw : (myisam_re_sub v).dropWhile isWordChar =
        myisam_re_sub (v.dropWhile isWordChar) := by
      have hw : ∀ x ∈ myisam_re_sub (v.takeWhile isWordChar), isWordChar x = true :=
        sub_allWord fun x hx => List.mem_takeWhile_imp hx
      rw [sub_wordSplit v, dropWhile_append_all _ hw]
      cases hd : v.dropWhile isWordChar with
      | nil => rfl
      | cons d r =>
        rw [sub_head_nonword r (dropWhile_head_nonword hd),
          List.dropWhile_cons_of_neg (by simp [dropWhile_head_nonword hd])]
    rw [hdw, sub_dropWhileRun v]
  unfold matchNameAt
  by_cases hc : v.takeWhile isWordChar ≠ [] ∧
      (v.drop (v.takeWhile isWordChar).length).head? = some tick
  · rw [if_pos hc, if_pos ⟨fun he => hc.1 (hnil.mp he), by rw [hdrop]; exact hc.2⟩]
    rfl
  · rw [if_neg hc, if_neg fun hc2 => hc ⟨fun he => hc2.1 (hnil.mpr he),
      by rw [← hdrop]; exact hc2.2⟩]

theorem scanTicks_skip {A : List Char} (B : List Char)
    (h : ∀ x ∈ A, ¬ x = tick) : scanTicks (A ++ B) = scanTicks B := by
  induction A with
  | nil => rfl
  | cons c A ih =>
    have hc : ¬ c = tick := h c (List.mem_cons_self c A)
    have ih2 := ih fun x hx => h x (List.mem_cons_of_mem c hx)
    show scanTicks (c :: (A ++ B)) = scanTicks B
    rw [scanTicks, ih2]
    cases scanTicks B <;> simp [hc]

theorem scanTicks_iso (u : List Char) :
    (scanTicks (myisam_re_sub u)).isSome = (scanTicks u).isSome := by
  match u with
  | [] => rfl
  | c :: cs =>
    by_cases hs : startsMyISAM (c :: cs) = true
    · have hsplit : (c :: cs).take 6 ++ (c :: cs).drop 6 = c :: cs :=
        List.take_append_drop 6 (c :: cs)
      have hnt : ∀ x ∈ (c :: cs).take 6, ¬ x = tick :=
        fun x hx => block_no_tick hs hx
      have hnt2 : ∀ x ∈ innoDB, ¬ x = tick := by decide
      rw [sub_match hs, scanTicks_skip _ hnt2]
      conv_rhs => rw [← hsplit]
      rw [scanTicks_skip _ hnt]
      exact scanTicks_iso ((c :: cs).drop 6)
    · rw [sub_keep (by simpa using hs)]
      have ih := scanTicks_iso cs
      have hmn := matchNameAt_iso cs
      rw [scanTicks, scanTicks]
      cases h1 : scanTicks (myisam_re_sub cs) with
      | some w =>
        cases h2 : scanTicks cs with
        | some w2 => rfl
        | none => rw [h1, h2] at ih; simp at ih
      | none =>
        cases h2 : scanTicks cs with
        | some w2 => rw [h1, h2] at ih; simp at ih
        | none =>
          by_cases hc : c = tick
          · simp only [if_pos hc]
            exact hmn
          · simp [hc]
termination_by u.length
decreasing_by
  · simp [List.length_drop]
    omega
  · simp

theorem sub_skip {k : Nat} {u : List Char}
    (h : ∀ p < k, startsMyISAM (u.drop p) = false) :
    myisam_re_sub u = u.take k ++ myisam_re_sub (u.drop k) := by
  induction k generalizing u with
  | zero => simp
  | succ k ih =>
    match u with
    | [] => simp
    | c :: cs =>
      have h0 : startsMyISAM (c :: cs) = false := by
        have := h 0 (Nat.succ_pos k)
        simpa using this
      have hcs : ∀ p < k, startsMyISAM (cs.drop p) = false := by
        intro p hp
        have := h (p + 1) (Nat.succ_lt_succ hp)
        simpa using this
      rw [sub_keep h0, List.take_succ_cons, List.drop_succ_cons,
        List.cons_append, ih hcs]

theorem hd_upper_of_starts {t : List Char} {p : Nat}
    (h : startsMyISAM (t.drop p) = true) :
    ∃ c, t[p]? = some c ∧ c.toUpper = 'M' := by
  have hne : t.drop p ≠ [] := by
    intro he
    rw [he] at h
    simp [startsMyISAM, upStr, myisamU] at h
  rcases List.exists_cons_of_ne_nil hne with ⟨c, rest, hc⟩
  refine ⟨c, ?_, startsMyISAM_head (hc ▸ h)⟩
  rw [← List.head?_drop, hc]
  rfl

theorem mem_upStr_of_getElem {s : List Char} {p : Nat} {c : Char}
    (hp : p < s.length) (hc : s[p]? = some c) : c.toUpper ∈ upStr s := by
  rw [List.mem_iff_getElem?]
  exact ⟨p, by rw [upStr, List.getElem?_map, hc]; rfl⟩

theorem no_starts_in_pre {pre t : List Char} (hM : 'M' ∉ upStr pre)
    (h1 : upStr (t.take pre.length) = upStr pre) :
    ∀ p < pre.length, startsMyISAM (t.drop p) = false := by
  intro p hp
  cases hs : startsMyISAM (t.drop p) with
  | false => rfl
  | true =>
    exfalso
    rcases hd_upper_of_starts hs with ⟨c, hc, hcu⟩
    have hplen : p < (t.take pre.length).length := by
      have := congrArg List.length h1
      simp [upStr] at this
      simp [List.length_take]
      omega
    have hc2 : (t.take pre.length)[p]? = some c := by
      rw [List.getElem?_take, if_pos hp, hc]
    have := mem_upStr_of_getElem hplen hc2
    rw [h1, hcu] at this
    exact hM this

theorem pre_le_len {pre t : List Char}
    (h1 : upStr (t.take pre.length) = upStr pre) : pre.length ≤ t.length := by
  have := congrArg List.length h1
  simp [upStr, List.length_take] at this
  omega

theorem sub_take_pre {pre t : List Char} (hM : 'M' ∉ upStr pre)
    (h1 : upStr (t.take pre.length) = upStr pre) :
    (myisam_re_sub t).take pre.length = t.take pre.length ∧
      (myisam_re_sub t).drop pre.length = myisam_re_sub (t.drop pre.length) := by
  have hle := pre_le_len h1
  have hsk := sub_skip (no_starts_in_pre hM h1)
  have hlen : (t.take pre.length).length = pre.length := by
    simp [List.length_take]
    omega
  constructor
  · rw [hsk, List.take_append_eq_append_take, hlen, Nat.sub_self,
      List.take_take, Nat.min_self, List.take_zero, List.append_nil]
  · rw [hsk, List.drop_append_eq_append_drop, hlen, Nat.sub_self,
      List.drop_zero]
    have : (t.take pre.length).drop pre.length = [] := by
      rw [List.drop_eq_nil_iff_le, hlen]
    rw [this, List.nil_append]

theorem sub_pre_reverse {pre t : List Char} (hM : 'M' ∉ upStr pre)
    (hI : 'I' ∉ upStr pre)
    (h2 : upStr ((myisam_re_sub t).take pre.length) = upStr pre) :
    upStr (t.take pre.length) = upStr pre := by
  by_cases hall : ∀ p < pre.length, startsMyISAM (t.drop p) = false
  · have hsk := sub_skip hall
    have hle : pre.length ≤ t.length := by
      have := pre_le_len h2
      rwa [sub_length] at this
    have hlen : (t.take pre.length).length = pre.length := by
      simp [List.length_take]
      omega
    rw [hsk, List.take_append_eq_append_take, hlen, Nat.sub_self,
      List.take_take, Nat.min_self, List.take_zero, List.append_nil] at h2
    exact h2
  · exfalso
    push_neg at hall
    rcases hall with ⟨p, hp, hps⟩
    have hex : ∃ q, startsMyISAM (t.drop q) = true := ⟨p, by simpa using hps⟩
    set p0 := Nat.find hex with hp0
    have hp0lt : p0 < pre.length := le_trans (Nat.succ_le_succ
      (Nat.find_min' hex (by simpa using hps))) hp
    have hfirst : ∀ q < p0, startsMyISAM (t.drop q) = false := by
      intro q hq
      have := Nat.find_min hex hq
      simpa using this
    have hs0 : startsMyISAM (t.drop p0) = true := Nat.find_spec hex
    have hsk := sub_skip hfirst
    have hp0t : p0 < t.length := by
      have h6 := startsMyISAM_length hs0
      simp [List.length_drop] at h6
      omega
    have hIval : (myisam_re_sub t)[p0]? = some 'I' := by
      rw [hsk, List.getElem?_append_right (by simp [List.length_take])]
      have : p0 - (t.take p0).length = 0 := by
        simp [List.length_take]
        omega
      rw [this, sub_match hs0]
      rfl
    have hplen : p0 < ((myisam_re_sub t).take pre.length).length := by
      have := pre_le_len h2
      rw [sub_length] at this
      simp [List.length_take, sub_length]
      omega
    have hc2 : ((myisam_re_sub t).take pre.length)[p0]? = some 'I' := by
      rw [List.getElem?_take, if_pos hp0lt, hIval]
    have := mem_upStr_of_getElem hplen hc2
    rw [h2] at this
    exact hI (by simpa using this)

theorem marker_iso {pre : List Char} (hM : 'M' ∉ upStr pre)
    (hI : 'I' ∉ upStr pre) (l : List Char) :
    (markerSearch pre (myisam_re_sub l)).isSome = (markerSearch pre l).isSome := by
  unfold markerSearch
  rw [stripNL_sub]
  by_cases hc : startsWithCI pre (stripNL l) = true ∧ '\n' ∉ stripNL l
  · have h1 : upStr ((stripNL l).take pre.length) = upStr pre := by
      have := hc.1
      simpa [startsWithCI] using this
    have hcs : startsWithCI pre (myisam_re_sub (stripNL l)) = true ∧
        '\n' ∉ myisam_re_sub (stripNL l) := by
      constructor
      · simp only [startsWithCI, decide_eq_true_eq]
        rw [(sub_take_pre hM h1).1]
        exact h1
      · rw [sub_nl_mem]
        exact hc.2
    rw [if_pos hc, if_pos hcs, (sub_take_pre hM h1).2]
    exact scanTicks_iso ((stripNL l).drop pre.length)
  · have hcs : ¬ (startsWithCI pre (myisam_re_sub (stripNL l)) = true ∧
        '\n' ∉ myisam_re_sub (stripNL l)) := by
      intro hc2
      apply hc
      constructor
      · have h2 : upStr ((myisam_re_sub (stripNL l)).take pre.length) = upStr pre := by
          have := hc2.1
          simpa [startsWithCI] using this
        simp only [startsWithCI, decide_eq_true_eq]
        exact sub_pre_reverse hM hI h2
      · intro hm
        exact hc2.2 ((sub_nl_mem (stripNL l)).mpr hm)
    rw [if_neg hc, if_neg hcs]

theorem search_cons_shift {c : Char} (X : List Char) (h : c.toUpper ≠ 'M') :
    myisam_re_search (c :: X) = myisam_re_search X := by
  rw [myisam_re_search, startsMyISAM_false_of_head _ h]
  simp

theorem search_innoDB_append (X : List Char) :
    myisam_re_search (innoDB ++ X) = myisam_re_search X := by
  show myisam_re_search ('I' :: 'n' :: 'n' :: 'o' :: 'D' :: 'B' :: X) = _
  rw [search_cons_shift _ (by decide), search_cons_shift _ (by decide),
    search_cons_shift _ (by decide), search_cons_shift _ (by decide),
    search_cons_shift _ (by decide), search_cons_shift _ (by decide)]

theorem take_innoDB_head {k : Nat} (X : List Char) (hk : k ≤ 6) :
    (innoDB ++ X).take k = innoDB.take k := by
  rw [List.take_append_eq_append_take]
  have : k - innoDB.length = 0 := by simp [innoDB]; omega
  simp [this]

theorem take1_transfer {x : List Char}
    (h : upStr ((myisam_re_sub x).take 1) = ['M']) : upStr (x.take 1) = ['M'] := by
  match x with
  | [] => simp [myisam_re_sub, upStr] at h
  | c :: cs =>
    by_cases hs : startsMyISAM (c :: cs) = true
    · rw [sub_match hs, take_innoDB_head _ (by omega)] at h
      exact absurd h (by decide)
    · rw [sub_keep (by simpa using hs)] at h
      simpa using h

theorem take2_transfer {x : List Char}
    (h : upStr ((myisam_re_sub x).take 2) = ['A', 'M']) :
    upStr (x.take 2) = ['A', 'M'] := by
  match x with
  | [] => simp [myisam_re_sub, upStr] at h
  | c :: cs =>
    by_cases hs : startsMyISAM (c :: cs) = true
    · rw [sub_match hs, take_innoDB_head _ (by omega)] at h
      exact absurd h (by decide)
    · rw [sub_keep (by simpa using hs)] at h
      rw [List.take_succ_cons, upStr_cons] at h ⊢
      rcases List.cons_eq_cons.mp h with ⟨h1, h2⟩
      exact List.cons_eq_cons.mpr ⟨h1, take1_transfer h2⟩

theorem take3_transfer {x : List Char}
    (h : upStr ((myisam_re_sub x).take 3) = ['S', 'A', 'M']) :
    upStr (x.take 3) = ['S', 'A', 'M'] := by
  match x with
  | [] => simp [myisam_re_sub, upStr] at h
  | c :: cs =>
    by_cases hs : startsMyISAM (c :: cs) = true
    · rw [sub_match hs, take_innoDB_head _ (by omega)] at h
      exact absurd h (by decide)
    · rw [sub_keep (by simpa using hs)] at h
      rw [List.take_succ_cons, upStr_cons] at h ⊢
      rcases List.cons_eq_cons.mp h with ⟨h1, h2⟩
      exact List.cons_eq_cons.mpr ⟨h1, take2_transfer h2⟩

theorem take4_transfer {x : List Char}
    (h : upStr ((myisam_re_sub x).take 4) = ['I', 'S', 'A', 'M']) :
    upStr (x.take 4) = ['I', 'S', 'A', 'M'] := by
  match x with
  | [] => simp [myisam_re_sub, upStr] at h
  | c :: cs =>
    by_cases hs : startsMyISAM (c :: cs) = true
    · rw [sub_match hs, take_innoDB_head _ (by omega)] at h
      exact absurd h (by decide)
    · rw [sub_keep (by simpa using hs)] at h
      rw [List.take_succ_cons, upStr_cons] at h ⊢
      rcases List.cons_eq_cons.mp h with ⟨h1, h2⟩
      exact List.cons_eq_cons.mpr ⟨h1, take3_transfer h2⟩

theorem take5_transfer {x : List Char}
    (h : upStr ((myisam_re_sub x).take 5) = ['Y', 'I', 'S', 'A', 'M']) :
    upStr (x.take 5) = ['Y', 'I', 'S', 'A', 'M'] := by
  match x with
  | [] => simp [myisam_re_sub, upStr] at h
  | c :: cs =>
    by_cases hs : startsMyISAM (c :: cs) = true
    · rw [sub_match hs, take_innoDB_head _ (by omega)] at h
      exact absurd h (by decide)
    · rw [sub_keep (by simpa using hs)] at h
      rw [List.take_succ_cons, upStr_cons] at h ⊢
      rcases List.cons_eq_cons.mp h with ⟨h1, h2⟩
      exact List.cons_eq_cons.mpr ⟨h1, take4_transfer h2⟩

theorem search_sub (l : List Char) :
    myisam_re_search (myisam_re_sub l) = false := by
  match l with
  | [] => rfl
  | c :: cs =>
    by_cases hs : startsMyISAM (c :: cs) = true
    · rw [sub_match hs, search_innoDB_append]
      exact search_sub ((c :: cs).drop 6)
    · rw [sub_keep (by simpa using hs)]
      have h2 : startsMyISAM (c :: myisam_re_sub cs) = false := by
        cases hx : startsMyISAM (c :: myisam_re_sub cs) with
        | false => rfl
        | true =>
          exfalso
          apply hs
          have hhd := startsMyISAM_head hx
          rw [startsMyISAM_iff, List.take_succ_cons, upStr_cons, myisamU] at hx
          rcases List.cons_eq_cons.mp hx with ⟨h1, htl⟩
          rw [startsMyISAM_iff, List.take_succ_cons, upStr_cons, myisamU]
          exact List.cons_eq_cons.mpr ⟨h1, take5_transfer htl⟩
      rw [myisam_re_search, h2, search_sub cs]
      rfl
termination_by l.length
decreasing_by
  · simp [List.length_drop]
    omega
  · simp

theorem sub_of_no_search {l : List Char} (h : myisam_re_search l = false) :
    myisam_re_sub l = l := by
  induction l with
  | nil => rfl
  | cons c cs ih =>
    rw [myisam_re_search] at h
    rcases Bool.or_eq_false_iff.mp h with ⟨h1, h2⟩
    rw [sub_keep h1, ih h2]

theorem sub_idem (l : List Char) :
    myisam_re_sub (myisam_re_sub l) = myisam_re_sub l :=
  sub_of_no_search (search_sub l)

theorem ReplacesAll_sub (l : List Char) : ReplacesAll l (myisam_re_sub l) := by
  match l with
  | [] => exact ReplacesAll.nil
  | c :: cs =>
    by_cases hs : startsMyISAM (c :: cs) = true
    · rw [sub_match hs]
      have hr := ReplacesAll.subst ((c :: cs).take 6) ((c :: cs).drop 6)
        (myisam_re_sub ((c :: cs).drop 6)) (startsMyISAM_iff.mp hs)
        (ReplacesAll_sub ((c :: cs).drop 6))
      rwa [List.take_append_drop 6 (c :: cs)] at hr
    · rw [sub_keep (by simpa using hs)]
      refine ReplacesAll.keep c cs (myisam_re_sub cs) ?_ (ReplacesAll_sub cs)
      simpa [startsMyISAM] using hs
termination_by l.length
decreasing_by
  · simp [List.length_drop]
    omega
  · simp

theorem upStr_getElem_pre {pre t : List Char} {i : Nat} (hi : i < pre.length)
    (h : upStr (t.take pre.length) = upStr pre) :
    (t[i]?).map Char.toUpper = (upStr pre)[i]? := by
  have hc := congrArg (fun l => l[i]?) h
  simpa [upStr, List.getElem?_map, List.getElem?_take, hi] using hc

theorem db_table_mutual {line x : List Char}
    (h : database_re_search line = some x) : table_re_search line = none := by
  have hDB : startsWithCI createDatabaseLit (stripNL line) = true ∧
      '\n' ∉ stripNL line := by
    by_contra hc
    unfold database_re_search markerSearch at h
    rw [if_neg hc] at h
    exact absurd h (by simp)
  have h1 : upStr ((stripNL line).take createDatabaseLit.length) =
      upStr createDatabaseLit := by
    have := hDB.1
    simpa [startsWithCI] using this
  have hnc : ¬ (startsWithCI createTableLit (stripNL line) = true ∧
      '\n' ∉ stripNL line) := by
    rintro ⟨hT, -⟩
    have h2 : upStr ((stripNL line).take createTableLit.length) =
        upStr createTableLit := by simpa [startsWithCI] using hT
    have e1 := upStr_getElem_pre (i := 7) (by decide) h1
    have e2 := upStr_getElem_pre (i := 7) (by decide) h2
    rw [(by decide : (upStr createDatabaseLit)[7]? = some 'D')] at e1
    rw [(by decide : (upStr createTableLit)[7]? = some 'T')] at e2
    cases hti : (stripNL line)[7]? with
    | none => rw [hti] at e1; exact absurd e1 (by simp)
    | some c =>
      rw [hti] at e1 e2
      simp at e1 e2
      rw [e1] at e2
      exact absurd e2 (by decide)
  unfold table_re_search markerSearch
  rw [if_neg hnc]

theorem updMarkers_none_none {E : List (List Char)} {s : PState} {line : List Char}
    (h1 : database_re_search line = none) (h2 : table_re_search line = none) :
    updMarkers E s line = some s := by
  simp [updMarkers, h1, h2]

theorem updMarkers_db {E : List (List Char)} {s : PState} {line name : List Char}
    (h1 : database_re_search line = some name) :
    updMarkers E s line =
      some { s with
              database := some name,
              isexcluded := E.contains (upStr name) } := by
  simp [updMarkers, h1, db_table_mutual h1]

theorem updMarkers_tb_none {E : List (List Char)} {s : PState} {line tname : List Char}
    (h1 : database_re_search line = none) (h2 : table_re_search line = some tname)
    (h3 : s.database = none) : updMarkers E s line = none := by
  simp [updMarkers, h1, h2, h3]

theorem updMarkers_tb_some {E : List (List Char)} {s : PState}
    {line tname db : List Char} (h1 : database_re_search line = none)
    (h2 : table_re_search line = some tname) (h3 : s.database = some db) :
    updMarkers E s line =
      some { s with
              table := some tname,
              isexcluded := E.contains (upStr db) } := by
  simp [updMarkers, h1, h2, h3]

theorem writeLine_keep {s : PState} {line : List Char}
    (h : (!s.isexcluded && myisam_re_search line) = false) :
    writeLine s line =
      some { s with out := s.out ++ [line], preserved := s.preserved + 1 } := by
  simp [writeLine, h]

theorem writeLine_sub {s : PState} {line tv : List Char}
    (h : (!s.isexcluded && myisam_re_search line) = true) (ht : s.table = some tv) :
    writeLine s line =
      some { s with
              out := s.out ++ [myisam_re_sub line],
              changed := s.changed + 1 } := by
  simp [writeLine, h, ht]

theorem writeLine_crash {s : PState} {line : List Char}
    (h : (!s.isexcluded && myisam_re_search line) = true) (ht : s.table = none) :
    writeLine s line = none := by
  simp [writeLine, h, ht]

theorem updMarkers_frame {E : List (List Char)} {s : PState} {line : List Char}
    {m : PState} (h : updMarkers E s line = some m) :
    m.changed = s.changed ∧ m.preserved = s.preserved ∧ m.out = s.out := by
  cases hdb : database_re_search line with
  | some name =>
    rw [updMarkers_db hdb] at h
    cases h
    exact ⟨rfl, rfl, rfl⟩
  | none =>
    cases htb : table_re_search line with
    | none =>
      rw [updMarkers_none_none hdb htb] at h
      cases h
      exact ⟨rfl, rfl, rfl⟩
    | some tname =>
      cases hdbs : s.database with
      | none =>
        rw [updMarkers_tb_none hdb htb hdbs] at h
        exact absurd h (by simp)
      | some db =>
        rw [updMarkers_tb_some hdb htb hdbs] at h
        cases h
        exact ⟨rfl, rfl, rfl⟩

theorem step_emits {E : List (List Char)} {s : PState} {line : List Char}
    {s2 : PState} (h : step E s line = some s2) :
    ∃ y, (y = line ∨ y = myisam_re_sub line) ∧ s2.out = s.out ++ [y] ∧
      ((s2.changed = s.changed + 1 ∧ s2.preserved = s.preserved) ∨
        (s2.changed = s.changed ∧ s2.preserved = s.preserved + 1)) := by
  rcases Option.bind_eq_some.mp h with ⟨m, hm, hw⟩
  rcases updMarkers_frame hm with ⟨hc, hp, ho⟩
  by_cases hcond : (!m.isexcluded && myisam_re_search line) = true
  · cases ht : m.table with
    | none => rw [writeLine_crash hcond ht] at hw; exact absurd hw (by simp)
    | some tv =>
      rw [writeLine_sub hcond ht] at hw
      cases hw
      exact ⟨myisam_re_sub line, Or.inr rfl, by simp [ho], Or.inl (by simp [hc, hp])⟩
  · rw [writeLine_keep (by simpa using hcond)] at hw
    cases hw
    exact ⟨line, Or.inl rfl, by simp [ho], Or.inr (by simp [hc, hp])⟩

theorem runLines_append (E : List (List Char)) (s : PState)
    (xs ys : List (List Char)) :
    runLines E s (xs ++ ys) = (runLines E s xs).bind fun s2 => runLines E s2 ys := by
  induction xs generalizing s with
  | nil => rfl
  | cons l ls ih =>
    cases hstep : step E s l with
    | none => simp [runLines, hstep]
    | some s2 => simp [runLines, hstep, ih]

theorem runLines_counters {E : List (List Char)} {L : List (List Char)}
    {s s2 : PState} (h : runLines E s L = some s2) :
    s2.changed + s2.preserved = s.changed + s.preserved + L.length ∧
      s2.out.length = s.out.length + L.length := by
  induction L generalizing s with
  | nil =>
    cases h
    simp
  | cons l ls ih =>
    rw [runLines] at h
    rcases Option.bind_eq_some.mp h with ⟨sm, hsm, hrest⟩
    rcases step_emits hsm with ⟨y, -, hout, hcnt⟩
    rcases ih hrest with ⟨ih1, ih2⟩
    constructor
    · rcases hcnt with ⟨h1, h2⟩ | ⟨h1, h2⟩ <;> rw [ih1, h1, h2] <;> simp <;> omega
    · rw [ih2, hout]
      simp
      omega

theorem runLines_prefix {E : List (List Char)} {L : List (List Char)}
    {s sf : PState} (h : runLines E s L = some sf) (k : Nat) :
    ∃ sk, runLines E s (L.take k) = some sk := by
  have hsplit : L.take k ++ L.drop k = L := List.take_append_drop k L
  rw [← hsplit, runLines_append] at h
  rcases Option.bind_eq_some.mp h with ⟨sk, hk, -⟩
  exact ⟨sk, hk⟩

theorem runLines_out_rel {E : List (List Char)} {L : List (List Char)}
    {s sf : PState} (h : runLines E s L = some sf) :
    ∃ ys, sf.out = s.out ++ ys ∧
      List.Forall₂ (fun l y => y = l ∨ y = myisam_re_sub l) L ys := by
  induction L generalizing s with
  | nil =>
    cases h
    exact ⟨[], by simp, List.Forall₂.nil⟩
  | cons l ls ih =>
    rw [runLines] at h
    rcases Option.bind_eq_some.mp h with ⟨sm, hsm, hrest⟩
    rcases step_emits hsm with ⟨y, hy, hout, -⟩
    rcases ih hrest with ⟨ys, hys, hrel⟩
    exact ⟨y :: ys, by rw [hys, hout]; simp, List.Forall₂.cons hy hrel⟩

theorem forall2_getElem {R : List Char → List Char → Prop}
    {L ys : List (List Char)} (h : List.Forall₂ R L ys) :
    ∀ {i : Nat} {a b : List Char}, L[i]? = some a → ys[i]? = some b → R a b := by
  induction h with
  | nil => intro i a b ha; simp at ha
  | cons hr hrel ih =>
    intro i a b ha hb
    match i with
    | 0 =>
      simp at ha hb
      exact ha ▸ hb ▸ hr
    | i + 1 =>
      simp at ha hb
      exact ih ha hb

theorem runLines_preamble {E : List (List Char)} {L : List (List Char)}
    (hnm : ∀ l ∈ L, database_re_search l = none ∧ table_re_search l = none)
    (c p : Nat) (o : List (List Char)) :
    runLines E ⟨none, true, none, c, p, o⟩ L =
      some ⟨none, true, none, c, p + L.length, o ++ L⟩ := by
  induction L generalizing p o with
  | nil => simp [runLines]
  | cons l ls ih =>
    have h1 := (hnm l (List.mem_cons_self l ls)).1
    have h2 := (hnm l (List.mem_cons_self l ls)).2
    have hstep : step E ⟨none, true, none, c, p, o⟩ l =
        some ⟨none, true, none, c, p + 1, o ++ [l]⟩ := by
      unfold step
      rw [updMarkers_none_none h1 h2, Option.some_bind,
        writeLine_keep (by simp)]
    rw [runLines, hstep, Option.some_bind,
      ih (fun x hx => hnm x (List.mem_cons_of_mem l hx)) (p + 1) (o ++ [l])]
    congr 2
    · simp
      omega
    · simp

theorem writeLine_frame {s : PState} {line : List Char} {s2 : PState}
    (h : writeLine s line = some s2) :
    s2.database = s.database ∧ s2.isexcluded = s.isexcluded ∧ s2.table = s.table := by
  by_cases hcond : (!s.isexcluded && myisam_re_search line) = true
  · cases ht : s.table with
    | none => rw [writeLine_crash hcond ht] at h; exact absurd h (by simp)
    | some tv => rw [writeLine_sub hcond ht] at h; cases h; exact ⟨rfl, rfl, ht⟩
  · rw [writeLine_keep (by simpa using hcond)] at h
    cases h
    exact ⟨rfl, rfl, rfl⟩

theorem updMarkers_db_val {E : List (List Char)} {s : PState} {line : List Char}
    {m : PState} (h : updMarkers E s line = some m) :
    (∃ nm, database_re_search line = some nm ∧ m.database = some nm) ∨
      (database_re_search line = none ∧ m.database = s.database) := by
  cases hdb : database_re_search line with
  | some name =>
    rw [updMarkers_db hdb] at h
    cases h
    exact Or.inl ⟨name, rfl, rfl⟩
  | none =>
    cases htb : table_re_search line with
    | none =>
      rw [updMarkers_none_none hdb htb] at h
      cases h
      exact Or.inr ⟨rfl, rfl⟩
    | some tname =>
      cases hdbs : s.database with
      | none => rw [updMarkers_tb_none hdb htb hdbs] at h; exact absurd h (by simp)
      | some db =>
        rw [updMarkers_tb_some hdb htb hdbs] at h
        cases h
        exact Or.inr ⟨rfl, hdbs⟩

theorem step_db_val {E : List (List Char)} {s : PState} {line : List Char}
    {s2 : PState} (h : step E s line = some s2) :
    (∃ nm, database_re_search line = some nm ∧ s2.database = some nm) ∨
      (database_re_search line = none ∧ s2.database = s.database) := by
  rcases Option.bind_eq_some.mp h with ⟨m, hm, hw⟩
  rw [(writeLine_frame hw).1]
  exact updMarkers_db_val hm

theorem runLines_db_persists {E : List (List Char)} {L : List (List Char)}
    {s sf : PState} (h : runLines E s L = some sf)
    (hd : (∃ l ∈ L, database_re_search l ≠ none) ∨ s.database ≠ none) :
    sf.database ≠ none := by
  induction L generalizing s with
  | nil =>
    cases h
    rcases hd with ⟨l, hl, -⟩ | hd
    · simp at hl
    · exact hd
  | cons l ls ih =>
    rw [runLines] at h
    rcases Option.bind_eq_some.mp h with ⟨sm, hsm, hrest⟩
    apply ih hrest
    rcases step_db_val hsm with ⟨nm, -, hv⟩ | ⟨hnone, hv⟩
    · exact Or.inr (by rw [hv]; simp)
    · rcases hd with ⟨x, hx, hxd⟩ | hd
      · rcases List.mem_cons.mp hx with rfl | hx
        · exact absurd hnone hxd
        · exact Or.inl ⟨x, hx, hxd⟩
      · exact Or.inr (by rw [hv]; exact hd)

/-- Claim C1: for every input stream of N lines, after a completed run
the counters satisfy lines_changed + lines_preserved = N = lines_read
(the reported summary count), and at every intermediate point of the
stream the two counters sum to the number of lines processed so far,
each line incrementing exactly one of the two. -/
theorem claim_C1 (E lines : List (List Char)) (s : PState) (n : Nat)
    (h : ProcessFiles E lines = some (s, n)) :
    s.changed + s.preserved = lines.length ∧ n = lines.length ∧
    (∀ k, k ≤ lines.length → ∃ sk, runLines E initState (lines.take k) = some sk ∧
      sk.changed + sk.preserved = k) ∧
    (∀ k sk sk', k < lines.length →
      runLines E initState (lines.take k) = some sk →
      runLines E initState (lines.take (k + 1)) = some sk' →
      (sk'.changed = sk.changed + 1 ∧ sk'.preserved = sk.preserved) ∨
        (sk'.changed = sk.changed ∧ sk'.preserved = sk.preserved + 1)) := by
  unfold ProcessFiles at h
  rcases Option.bind_eq_some.mp h with ⟨sf, hrun, hsum⟩
  have hns : s = sf ∧ n = lines.length := by
    cases hlen : lines.length with
    | zero => rw [hlen] at hsum; exact absurd hsum (by simp)
    | succ m =>
      rw [hlen] at hsum
      simp at hsum
      exact ⟨hsum.1.symm, hsum.2.symm⟩
  obtain ⟨rfl, hn⟩ := hns
  refine ⟨?_, hn, ?_, ?_⟩
  · have hc := (runLines_counters hrun).1
    simpa [initState] using hc
  · intro k hk
    rcases runLines_prefix hrun k with ⟨sk, hks⟩
    refine ⟨sk, hks, ?_⟩
    have hc := (runLines_counters hks).1
    simp [initState, List.length_take] at hc
    omega
  · intro k sk sk' hk h1 h2
    have hsome : lines[k]? = some lines[k] := List.getElem?_eq_getElem hk
    rw [List.take_succ, hsome] at h2
    rw [runLines_append, h1, Option.some_bind] at h2
    simp only [Option.toList] at h2
    rw [runLines] at h2
    rcases Option.bind_eq_some.mp h2 with ⟨sm, hstep, hnil⟩
    cases hnil
    rcases step_emits hstep with ⟨y, -, -, hcnt⟩
    exact hcnt

/-- Witness for claim C1 at a concrete one-line stream. -/
theorem claim_C1_witness :
    (⟨none, true, none, 0, 1, ["hello\n".toList]⟩ : PState).changed +
      (⟨none, true, none, 0, 1, ["hello\n".toList]⟩ : PState).preserved =
      ["hello\n".toList].length := by
  have h := claim_C1 defaultExcluded ["hello\n".toList]
    ⟨none, true, none, 0, 1, ["hello\n".toList]⟩ 1 (by decide)
  exact h.1

/-- Claim C5: the output stream of a completed run has exactly as many
lines as the input, in order: the i-th output line is either the i-th
input line unchanged or that line with the engine token substituted. -/
theorem claim_C5 (E lines : List (List Char)) (s : PState)
    (h : runLines E initState lines = some s) :
    s.out.length = lines.length ∧
    ∀ (i : Nat) (li oi : List Char), lines[i]? = some li → s.out[i]? = some oi →
      oi = li ∨ oi = myisam_re_sub li := by
  rcases runLines_out_rel h with ⟨ys, hys, hrel⟩
  have hout : s.out = ys := by simpa [initState] using hys
  constructor
  · rw [hout, ← List.Forall₂.length_eq hrel]
  · intro i li oi hli hoi
    rw [hout] at hoi
    exact forall2_getElem hrel hli hoi

/-- Witness for claim C5 at a concrete two-line stream. -/
theorem claim_C5_witness :
    (⟨some "mysql".toList, true, none, 0, 2, scenarioBLines⟩ : PState).out.length =
      scenarioBLines.length := by
  exact (claim_C5 defaultExcluded scenarioBLines
    ⟨some "mysql".toList, true, none, 0, 2, scenarioBLines⟩ (by decide)).1

/-- Claim C8: the exclusion flag starts out true, so every line before
the first schema or table marker is written out unchanged and counted as
preserved, even if it contains the engine token. -/
theorem claim_C8 (E lines : List (List Char)) (k : Nat)
    (hnm : ∀ j l, j < k → lines[j]? = some l →
      database_re_search l = none ∧ table_re_search l = none) :
    initState.isexcluded = true ∧
    runLines E initState (lines.take k) =
      some ⟨none, true, none, 0, (lines.take k).length, lines.take k⟩ := by
  refine ⟨rfl, ?_⟩
  have hmem : ∀ l ∈ lines.take k,
      database_re_search l = none ∧ table_re_search l = none := by
    intro l hl
    rcases List.mem_iff_getElem?.mp hl with ⟨j, hj⟩
    rw [List.getElem?_take] at hj
    by_cases hjk : j < k
    · rw [if_pos hjk] at hj
      exact hnm j l hjk hj
    · rw [if_neg hjk] at hj
      exact absurd hj (by simp)
  have hpre := runLines_preamble (E := E) hmem 0 0 []
  simpa [initState] using hpre

/-- Witness for claim C8: a comment line containing the token is
preserved. -/
theorem claim_C8_witness :
    runLines defaultExcluded initState (["-- a MyISAM note\n".toList].take 1) =
      some ⟨none, true, none, 0, (["-- a MyISAM note\n".toList].take 1).length,
        ["-- a MyISAM note\n".toList].take 1⟩ := by
  refine (claim_C8 defaultExcluded ["-- a MyISAM note\n".toList] 1 ?_).2
  intro j l hj hl
  match j with
  | 0 =>
    simp at hl
    subst hl
    exact ⟨by decide, by decide⟩
  | j + 1 => omega

/-- Claim C9: a table-creation marker before any schema marker makes the
loop fail on that line, dereferencing the null database for the
exclusion test, with no output line emitted for it; and whenever a
schema marker occurs at or before every table marker, this failure
branch of the marker phase is unreachable. -/
theorem claim_C9 :
    (∀ (E lines : List (List Char)) (i : Nat) (li : List Char),
      lines[i]? = some li → table_re_search li ≠ none →
      (∀ j l, j ≤ i → lines[j]? = some l → database_re_search l = none) →
      (∀ j l, j < i → lines[j]? = some l → table_re_search l = none) →
      runLines E initState (lines.take i) =
        some ⟨none, true, none, 0, (lines.take i).length, lines.take i⟩ ∧
      runLines E initState (lines.take (i + 1)) = none) ∧
    (∀ (E lines : List (List Char)) (k : Nat) (sk : PState) (lk : List Char),
      runLines E initState (lines.take k) = some sk → lines[k]? = some lk →
      (∀ (i : Nat) (li : List Char), lines[i]? = some li →
        table_re_search li ≠ none →
        ∃ j lj, j ≤ i ∧ lines[j]? = some lj ∧ database_re_search lj ≠ none) →
      updMarkers E sk lk ≠ none) := by
  constructor
  · intro E lines i li hi hT hdbs htbs
    have hmem : ∀ l ∈ lines.take i,
        database_re_search l = none ∧ table_re_search l = none := by
      intro l hl
      rcases List.mem_iff_getElem?.mp hl with ⟨j, hj⟩
      rw [List.getElem?_take] at hj
      by_cases hji : j < i
      · rw [if_pos hji] at hj
        exact ⟨hdbs j l (le_of_lt hji) hj, htbs j l hji hj⟩
      · rw [if_neg hji] at hj
        exact absurd hj (by simp)
    have hpre : runLines E initState (lines.take i) =
        some ⟨none, true, none, 0, (lines.take i).length, lines.take i⟩ := by
      have hrp := runLines_preamble (E := E) hmem 0 0 []
      simpa [initState] using hrp
    refine ⟨hpre, ?_⟩
    rw [List.take_succ, hi, runLines_append, hpre, Option.some_bind]
    simp only [Option.toList]
    have hdbi : database_re_search li = none := hdbs i li (le_refl i) hi
    cases htbi : table_re_search li with
    | none => exact absurd htbi hT
    | some tname =>
      have hu : updMarkers E
          ⟨none, true, none, 0, (lines.take i).length, lines.take i⟩ li = none :=
        updMarkers_tb_none hdbi htbi rfl
      have hstep : step E
          ⟨none, true, none, 0, (lines.take i).length, lines.take i⟩ li = none := by
        unfold step
        rw [hu]
        rfl
      rw [runLines, hstep]
      rfl
  · intro E lines k sk lk hk hlk hprec
    cases htb : table_re_search lk with
    | none =>
      cases hdb : database_re_search lk with
      | some name => rw [updMarkers_db hdb]; simp
      | none => rw [updMarkers_none_none hdb htb]; simp
    | some tname =>
      rcases hprec k lk hlk (by rw [htb]; simp) with ⟨j, lj, hji, hlj, hdbj⟩
      have hjk : j < k ∨ j = k := lt_or_eq_of_le hji
      rcases hjk with hjk | rfl
      · have hdbsk : sk.database ≠ none := by
          apply runLines_db_persists hk
          left
          refine ⟨lj, ?_, hdbj⟩
          rw [List.mem_iff_getElem?]
          exact ⟨j, by rw [List.getElem?_take, if_pos hjk]; exact hlj⟩
        cases hdbv : sk.database with
        | none => exact absurd hdbv hdbsk
        | some db => rw [updMarkers_tb_some (by
            cases hdb : database_re_search lk with
            | none => rfl
            | some nm => exact absurd (db_table_mutual hdb) (by rw [htb]; simp))
            htb hdbv]
                     simp
      · rw [hlk] at hlj
        cases hlj
        cases hdb : database_re_search lk with
        | none => exact absurd hdb hdbj
        | some nm => exact absurd (db_table_mutual hdb) (by rw [htb]; simp)

/-- Witness for claim C9 at concrete streams: a lone table marker
crashes, and with a schema marker first the marker phase succeeds. -/
theorem claim_C9_witness :
    runLines [] initState (["CREATE TABLE `t` (\n".toList].take (0 + 1)) = none ∧
    updMarkers [] ⟨some "a".toList, false, none, 0, 1,
      ["CREATE DATABASE `a`;\n".toList]⟩ "CREATE TABLE `t` (\n".toList ≠ none := by
  constructor
  · exact (claim_C9.1 [] ["CREATE TABLE `t` (\n".toList] 0
      "CREATE TABLE `t` (\n".toList (by decide) (by decide)
      (fun j l hj hl => by
        match j with
        | 0 =>
          simp at hl
          subst hl
          decide
        | j + 1 => simp at hl)
      (fun j l hj hl => by omega)).2
  · exact claim_C9.2 []
      ["CREATE DATABASE `a`;\n".toList, "CREATE TABLE `t` (\n".toList] 1
      ⟨some "a".toList, false, none, 0, 1, ["CREATE DATABASE `a`;\n".toList]⟩
      "CREATE TABLE `t` (\n".toList (by decide) (by decide)
      (fun i li hli hT => by
        match i with
        | 0 =>
          simp at hli
          subst hli
          exact absurd (by decide) hT
        | 1 =>
          exact ⟨0, "CREATE DATABASE `a`;\n".toList, by omega, by decide, by decide⟩
        | i + 2 => simp at hli)

/-- Claim C10: on an empty stream the run fails while computing the
final summary, because the loop variable carrying the line count was
never bound; the summary is produced only for nonempty streams and then
reports n + 1 lines read, where n is the last zero-based line index. -/
theorem claim_C10 (E : List (List Char)) :
    ProcessFiles E [] = none ∧ runLines E initState [] = some initState ∧
    ∀ lines s n, ProcessFiles E lines = some (s, n) →
      lines ≠ [] ∧ n = lines.length - 1 + 1 ∧ n = lines.length := by
  refine ⟨rfl, rfl, ?_⟩
  intro lines s n h
  unfold ProcessFiles at h
  rcases Option.bind_eq_some.mp h with ⟨sf, -, hsum⟩
  have hn : n = lines.length ∧ lines.length ≠ 0 := by
    cases hlen : lines.length with
    | zero => rw [hlen] at hsum; exact absurd hsum (by simp)
    | succ m =>
      rw [hlen] at hsum
      simp at hsum
      exact ⟨hsum.2.symm, by omega⟩
  refine ⟨?_, by omega, hn.1⟩
  intro he
  rw [he] at hn
  simp at hn

/-- Witness for claim C10 at concrete streams. -/
theorem claim_C10_witness :
    ProcessFiles defaultExcluded [] = none ∧
    scenarioBLines ≠ [] ∧ (2 : Nat) = scenarioBLines.length - 1 + 1 := by
  have h := claim_C10 defaultExcluded
  have h3 := h.2.2 scenarioBLines
    ⟨some "mysql".toList, true, none, 0, 2, scenarioBLines⟩ 2 (by decide)
  exact ⟨h.1, h3.1, h3.2.1⟩

/-- Claim C7, counterexample: when the output path exists and force is
not given, the script reports the error and aborts before opening any
file, but its exit status is 0, not a failure status — the error branch
only logs and never arranges a nonzero exit. -/
theorem claim_C7_cex :
    (mainGuard true false).errorReported = true ∧
    (mainGuard true false).inputOpened = false ∧
    (mainGuard true false).outputOpened = false ∧
    (mainGuard true false).outputClobbered = false ∧
    ¬ (mainGuard true false).exitCode ≠ 0 := by
  decide

/-- Claim C7 as amended: if the output path exists and force is not
given, the run aborts before opening any file, an error is reported,
the existing output bytes are untouched, and the process then ends with
exit status 0 (success), since no failing exit status is ever set. -/
theorem claim_C7 (e f : Bool) (h : (e && !f) = true) :
    (mainGuard e f).errorReported = true ∧
    (mainGuard e f).inputOpened = false ∧
    (mainGuard e f).outputOpened = false ∧
    (mainGuard e f).outputClobbered = false ∧
    (mainGuard e f).exitCode = 0 := by
  simp [mainGuard, h]

/-- Witness for the amended claim C7. -/
theorem claim_C7_witness :
    (true && !false) = true ∧ (mainGuard true false).exitCode = 0 :=
  ⟨by decide, (claim_C7 true false (by decide)).2.2.2.2⟩

/-- Claim C6, evaluation at the failing input: on the two-line scenario
stream the first line is preserved with the schema recognised as not
excluded, but processing the second line aborts — the substitution
branch evaluates the never-bound local variable table in its diagnostic
message before writing — so the run does not complete and the converted
line is never emitted. -/
theorem claim_C6 :
    runLines defaultExcluded initState (scenarioALines.take 1) =
      some ⟨some "appdb".toList, false, none, 0, 1,
        ["CREATE DATABASE `appdb`;\n".toList]⟩ ∧
    myisam_re_search ") ENGINE=MyISAM;\n".toList = true ∧
    ProcessFiles defaultExcluded scenarioALines = none := by
  refine ⟨by decide, by decide, ?_⟩
  decide

/-- Claim C3, counterexample: the second line of this stream is
attributed to a schema outside the exclusion set and contains the
engine token, yet no output line is emitted for it — the run aborts on
the unbound table variable in the diagnostic of the substitution
branch. -/
theorem claim_C3_cex :
    runLines defaultExcluded initState (scenarioShopLines.take 1) =
      some ⟨some "shop".toList, false, none, 0, 1,
        ["CREATE DATABASE `shop`;\n".toList]⟩ ∧
    myisam_re_search "x MyISAM y;\n".toList = true ∧
    runLines defaultExcluded initState scenarioShopLines = none := by
  refine ⟨by decide, by decide, ?_⟩
  decide

/-- Claim C3 as amended: for a line attributed to a schema not in the
exclusion set that contains the source engine token, provided a table
marker has already bound the table variable, the loop emits exactly the
input line with every case-insensitive occurrence of the token replaced
by the literal InnoDB and every other character kept verbatim, and
counts the line as changed. -/
theorem claim_C3 (E : List (List Char)) (s : PState) (line : List Char)
    (m : PState) (hu : updMarkers E s line = some m)
    (hexc : m.isexcluded = false) (htb : m.table ≠ none)
    (hsearch : myisam_re_search line = true) :
    step E s line =
      some { m with
              out := m.out ++ [myisam_re_sub line],
              changed := m.changed + 1 } ∧
    ReplacesAll line (myisam_re_sub line) := by
  constructor
  · unfold step
    rw [hu, Option.some_bind]
    obtain ⟨tv, ht⟩ := Option.ne_none_iff_exists'.mp htb
    exact writeLine_sub (by rw [hexc, hsearch]; rfl) ht
  · exact ReplacesAll_sub line

/-- Witness for the amended claim C3 on a mixed-case engine line. -/
theorem claim_C3_witness :
    step defaultExcluded
      ⟨some "shop".toList, false, some "tbl".toList, 0, 0, []⟩
      ") ENGINE=myisam;\n".toList =
      some ⟨some "shop".toList, false, some "tbl".toList, 1, 0,
        [") ENGINE=InnoDB;\n".toList]⟩ ∧
    ReplacesAll ") ENGINE=myisam;\n".toList
      (myisam_re_sub ") ENGINE=myisam;\n".toList) := by
  have h := claim_C3 defaultExcluded
    ⟨some "shop".toList, false, some "tbl".toList, 0, 0, []⟩
    ") ENGINE=myisam;\n".toList
    ⟨some "shop".toList, false, some "tbl".toList, 0, 0, []⟩
    (by decide) rfl (by decide) (by decide)
  refine ⟨?_, h.2⟩
  rw [h.1]
  decide

theorem runLines_excluded_scope {E : List (List Char)} {L : List (List Char)}
    {N : List Char} (hN : E.contains (upStr N) = true)
    (hnm : ∀ l ∈ L, database_re_search l = none) :
    ∀ s : PState, s.database = some N → s.isexcluded = true →
    ∃ sf, runLines E s L = some sf ∧ sf.out = s.out ++ L ∧
      sf.preserved = s.preserved + L.length ∧ sf.changed = s.changed ∧
      sf.database = some N ∧ sf.isexcluded = true := by
  induction L with
  | nil =>
    intro s hdb hexc
    exact ⟨s, rfl, by simp, by simp, rfl, hdb, hexc⟩
  | cons l ls ih =>
    intro s hdb hexc
    have hdbn := hnm l (List.mem_cons_self l ls)
    have hm : ∃ m, updMarkers E s l = some m ∧ m.database = some N ∧
        m.isexcluded = true ∧ m.out = s.out ∧ m.preserved = s.preserved ∧
        m.changed = s.changed := by
      cases htb : table_re_search l with
      | none =>
        exact ⟨s, updMarkers_none_none hdbn htb, hdb, hexc, rfl, rfl, rfl⟩
      | some tname =>
        refine ⟨_, updMarkers_tb_some hdbn htb hdb, hdb, ?_, rfl, rfl, rfl⟩
        exact hN
    rcases hm with ⟨m, hum, hmdb, hmexc, hmout, hmpre, hmch⟩
    have hw : writeLine m l =
        some { m with out := m.out ++ [l], preserved := m.preserved + 1 } :=
      writeLine_keep (by rw [hmexc]; rfl)
    have hstep : step E s l =
        some { m with out := m.out ++ [l], preserved := m.preserved + 1 } := by
      unfold step
      rw [hum, Option.some_bind, hw]
    rcases ih (fun x hx => hnm x (List.mem_cons_of_mem l hx))
        { m with out := m.out ++ [l], preserved := m.preserved + 1 }
        hmdb hmexc with ⟨sf, hrun, hout, hpre, hch, hfdb, hfexc⟩
    refine ⟨sf, ?_, ?_, ?_, ?_, hfdb, hfexc⟩
    · rw [runLines, hstep, Option.some_bind, hrun]
    · rw [hout]
      simp [hmout]
    · rw [hpre]
      simp [hmpre]
      omega
    · rw [hch, hmch]

/-- Claim C2: for a schema whose name is case-insensitively in the
exclusion set, every line from its creation marker up to but not
including the next schema marker is written to the output unchanged and
counted as preserved, even if it contains the engine token; the
membership test upper-cases both the captured name and the caller
supplied names. -/
theorem claim_C2 (E0 lines : List (List Char)) (i j : Nat)
    (N li lj : List Char) (si : PState)
    (hli : lines[i]? = some li) (hmark : database_re_search li = some N)
    (hmem : ∃ e ∈ E0, upStr e = upStr N)
    (hrun : runLines (E0.map upStr) initState (lines.take i) = some si)
    (hij : i ≤ j) (hlj : lines[j]? = some lj)
    (hscope : ∀ k l, i < k → k ≤ j → lines[k]? = some l →
      database_re_search l = none) :
    ∃ sj sj', runLines (E0.map upStr) initState (lines.take j) = some sj ∧
      runLines (E0.map upStr) initState (lines.take (j + 1)) = some sj' ∧
      sj'.out = sj.out ++ [lj] ∧ sj'.preserved = sj.preserved + 1 ∧
      sj'.changed = sj.changed := by
  have hNc : (E0.map upStr).contains (upStr N) = true := by
    rcases hmem with ⟨e, he, heq⟩
    have hmm : upStr N ∈ E0.map upStr := heq ▸ List.mem_map_of_mem upStr he
    simpa [List.contains] using List.elem_iff.mpr hmm
  -- process the marker line itself
  have hm1 : updMarkers (E0.map upStr) si li =
      some { si with
              database := some N,
              isexcluded := (E0.map upStr).contains (upStr N) } :=
    updMarkers_db hmark
  have hw1 : writeLine
      { si with
          database := some N,
          isexcluded := (E0.map upStr).contains (upStr N) } li =
      some { si with
              database := some N,
              isexcluded := (E0.map upStr).contains (upStr N),
              out := si.out ++ [li], preserved := si.preserved + 1 } := by
    rw [writeLine_keep (by rw [hNc]; rfl)]
  have hstep1 : step (E0.map upStr) si li =
      some { si with
              database := some N,
              isexcluded := (E0.map upStr).contains (upStr N),
              out := si.out ++ [li], preserved := si.preserved + 1 } := by
    unfold step
    rw [hm1, Option.some_bind, hw1]
  have h1 : runLines (E0.map upStr) initState (lines.take (i + 1)) =
      some { si with
              database := some N,
              isexcluded := (E0.map upStr).contains (upStr N),
              out := si.out ++ [li], preserved := si.preserved + 1 } := by
    rw [List.take_succ, hli, runLines_append, hrun, Option.some_bind]
    simp only [Option.toList]
    rw [runLines, hstep1, Option.some_bind, runLines]
  rcases Nat.lt_or_ge i j with hij2 | hij2
  · -- i < j : run the excluded scope up to j, then the line j itself
    have hjlen : j < lines.length := by
      rcases List.getElem?_eq_some.mp hlj with ⟨hj, -⟩
      exact hj
    have htkj : lines.take j = lines.take (i + 1) ++ (lines.take j).drop (i + 1) := by
      conv_lhs => rw [← List.take_append_drop (i + 1) (lines.take j)]
      rw [List.take_take, Nat.min_eq_left (by omega)]
    have hseg : ∀ l ∈ (lines.take j).drop (i + 1),
        database_re_search l = none := by
      intro l hl
      rcases List.mem_iff_getElem?.mp hl with ⟨mIdx, hmI⟩
      rw [List.getElem?_drop, List.getElem?_take] at hmI
      by_cases hcmp : i + 1 + mIdx < j
      · rw [if_pos hcmp] at hmI
        exact hscope (i + 1 + mIdx) l (by omega) (by omega) hmI
      · rw [if_neg hcmp] at hmI
        exact absurd hmI (by simp)
    rcases runLines_excluded_scope hNc hseg
        { si with
            database := some N,
            isexcluded := (E0.map upStr).contains (upStr N),
            out := si.out ++ [li], preserved := si.preserved + 1 }
        rfl (by exact hNc) with ⟨sj, hsjrun, hsjout, hsjpre, hsjch, hsjdb, hsjexc⟩
    have hj1 : runLines (E0.map upStr) initState (lines.take j) = some sj := by
      rw [htkj, runLines_append, h1, Option.some_bind, hsjrun]
    rcases runLines_excluded_scope (L := [lj]) hNc
        (by
          intro l hl
          rcases List.mem_singleton.mp hl with rfl
          exact hscope j l hij2 (le_refl j) hlj)
        sj hsjdb hsjexc with ⟨sj', hsjrun', hout', hpre', hch', -, -⟩
    refine ⟨sj, sj', hj1, ?_, by simpa using hout', by simpa using hpre', hch'⟩
    rw [List.take_succ, hlj, runLines_append, hj1, Option.some_bind]
    simp only [Option.toList]
    exact hsjrun'
  · -- j = i : the marker line itself is the preserved line
    have hji : j = i := le_antisymm (by omega) hij
    subst hji
    rw [hlj] at hli
    cases hli
    exact ⟨si, _, hrun, h1, by simp, by simp, by simp⟩

/-- Witness for claim C2 on the default exclusion set. -/
theorem claim_C2_witness :
    ∃ sj sj', runLines (["mysql".toList].map upStr) initState
        (scenarioBLines.take 1) = some sj ∧
      runLines (["mysql".toList].map upStr) initState
        (scenarioBLines.take (1 + 1)) = some sj' ∧
      sj'.out = sj.out ++ [") ENGINE=MyISAM;\n".toList] ∧
      sj'.preserved = sj.preserved + 1 ∧ sj'.changed = sj.changed := by
  refine claim_C2 ["mysql".toList] scenarioBLines 0 1 "mysql".toList
    "CREATE DATABASE `mysql`;\n".toList ") ENGINE=MyISAM;\n".toList initState
    (by decide) (by decide) ⟨"mysql".toList, by simp, rfl⟩ rfl (by omega)
    (by decide) ?_
  intro k l hk hk1 hl
  match k with
  | 0 => omega
  | 1 =>
    simp [scenarioBLines] at hl
    subst hl
    decide
  | k + 2 => omega

theorem db_search_iso (l : List Char) :
    (database_re_search (myisam_re_sub l)).isSome = (database_re_search l).isSome :=
  marker_iso (by decide) (by decide) l

theorem tb_search_iso (l : List Char) :
    (table_re_search (myisam_re_sub l)).isSome = (table_re_search l).isSome :=
  marker_iso (by decide) (by decide) l

theorem step_keep {E : List (List Char)} {s : PState} {y : List Char} {m : PState}
    (hu : updMarkers E s y = some m)
    (hcond : (!m.isexcluded && myisam_re_search y) = false) :
    step E s y =
      some { m with out := m.out ++ [y], preserved := m.preserved + 1 } := by
  unfold step
  rw [hu, Option.some_bind, writeLine_keep hcond]

theorem eq_none_of_isSome_false {α : Type} {o : Option α}
    (h : o.isSome = false) : o = none := by
  cases o with
  | none => rfl
  | some a => simp at h

theorem SimInv_congr {E : List (List Char)} {a b s : PState} (h : SimInv E a s)
    (hdb : b.database = a.database) (hexc : b.isexcluded = a.isexcluded) :
    SimInv E b s := by
  obtain ⟨h1, h2, h3, h4⟩ := h
  refine ⟨fun hb => ?_, ?_, ?_, h4⟩
  · obtain ⟨ha1, ha2⟩ := h1 (by rw [← hexc]; exact hb)
    exact ⟨ha1, by rw [hdb]; exact ha2⟩
  · rw [hdb]
    exact h2
  · intro d hd
    rw [hexc]
    exact h3 d (by rw [← hdb]; exact hd)

theorem updMarkers_db_fields {E : List (List Char)} {s : PState}
    {line N : List Char} {m : PState} (h1 : database_re_search line = some N)
    (h : updMarkers E s line = some m) :
    m.database = some N ∧ m.isexcluded = E.contains (upStr N) := by
  rw [updMarkers_db h1] at h
  cases h
  exact ⟨rfl, rfl⟩

theorem updMarkers_tb_fields {E : List (List Char)} {s : PState}
    {line T : List Char} {m : PState} (h1 : database_re_search line = none)
    (h2 : table_re_search line = some T) (h : updMarkers E s line = some m) :
    ∃ d, s.database = some d ∧ m.database = some d ∧
      m.isexcluded = E.contains (upStr d) := by
  cases hdbs : s.database with
  | none => rw [updMarkers_tb_none h1 h2 hdbs] at h; exact absurd h (by simp)
  | some d =>
    rw [updMarkers_tb_some h1 h2 hdbs] at h
    cases h
    exact ⟨d, rfl, hdbs, rfl⟩

theorem sim_step_keep2 {E : List (List Char)} {s1 s2 : PState} {l y : List Char}
    {m1 : PState} (hm1 : updMarkers E s1 l = some m1)
    (hexcf : m1.isexcluded = false) (hsy : myisam_re_search y = false)
    (hdbiso : (database_re_search y).isSome = (database_re_search l).isSome)
    (htbiso : (table_re_search y).isSome = (table_re_search l).isSome)
    (hinv : SimInv E s1 s2) :
    ∃ s2', step E s2 y = some s2' ∧ s2'.out = s2.out ++ [y] ∧
      s2'.changed = s2.changed ∧ s2'.preserved = s2.preserved + 1 ∧
      SimInv E m1 s2' := by
  obtain ⟨hinv1, hinv2, hinv3, hinv4⟩ := hinv
  cases hdb : database_re_search l with
  | some N =>
    have hys : (database_re_search y).isSome = true := by rw [hdbiso, hdb]; rfl
    rcases Option.isSome_iff_exists.mp hys with ⟨N2, hdby⟩
    have hm1f := updMarkers_db_fields hdb hm1
    have hm2 := updMarkers_db (E := E) (s := s2) hdby
    refine ⟨_, step_keep hm2 (by simp [hsy]), by simp, by simp, by simp, ?_⟩
    unfold SimInv
    refine ⟨fun hx => absurd hx (by simp [hexcf]), ?_, ?_, ?_⟩
    · rw [hm1f.1]
      simp
    · intro d hd
      rw [hm1f.1] at hd
      simp at hd
      subst hd
      exact hm1f.2
    · intro d hd
      simp at hd
      subst hd
      rfl
  | none =>
    have hdbyn : database_re_search y = none :=
      eq_none_of_isSome_false (by rw [hdbiso, hdb]; rfl)
    cases htb : table_re_search l with
    | some T =>
      have hys : (table_re_search y).isSome = true := by rw [htbiso, htb]; rfl
      rcases Option.isSome_iff_exists.mp hys with ⟨T2, htby⟩
      rcases updMarkers_tb_fields hdb htb hm1 with ⟨d1, hs1db, hm1db, hm1exc⟩
      have hs2some : ∃ d2, s2.database = some d2 := by
        cases hs2 : s2.database with
        | some d2 => exact ⟨d2, rfl⟩
        | none => exact absurd (hinv2.mpr hs2) (by rw [hs1db]; simp)
      rcases hs2some with ⟨d2, hs2db⟩
      have hm2 := updMarkers_tb_some (E := E) hdbyn htby hs2db
      refine ⟨_, step_keep hm2 (by simp [hsy]), by simp, by simp, by simp, ?_⟩
      unfold SimInv
      refine ⟨fun hx => absurd hx (by simp [hexcf]), ?_, ?_, ?_⟩
      · rw [hm1db]
        simp [hs2db]
      · intro d hd
        rw [hm1db] at hd
        simp at hd
        subst hd
        exact hm1exc
      · intro d hd
        simp [hs2db] at hd
        subst hd
        simp
    | none =>
      have htbyn : table_re_search y = none :=
        eq_none_of_isSome_false (by rw [htbiso, htb]; rfl)
      have hm1s : m1 = s1 := by
        have hu := updMarkers_none_none (E := E) (s := s1) hdb htb
        rw [hm1] at hu
        exact Option.some.inj hu
      have hm2 := updMarkers_none_none (E := E) (s := s2) hdbyn htbyn
      subst hm1s
      refine ⟨_, step_keep hm2 (by simp [hsy]), by simp, by simp, by simp, ?_⟩
      unfold SimInv
      refine ⟨fun hx => absurd hx (by simp [hexcf]), ?_, ?_, ?_⟩
      · simpa using hinv2
      · intro d hd
        exact hinv3 d hd
      · intro d hd
        exact hinv4 d hd

theorem sim_step {E : List (List Char)} {s1 s2 : PState} {l : List Char}
    {s1' : PState} (h : step E s1 l = some s1') (hinv : SimInv E s1 s2) :
    ∃ y s2', s1'.out = s1.out ++ [y] ∧ step E s2 y = some s2' ∧
      s2'.out = s2.out ++ [y] ∧ s2'.changed = s2.changed ∧
      s2'.preserved = s2.preserved + 1 ∧ SimInv E s1' s2' := by
  rcases Option.bind_eq_some.mp h with ⟨m1, hm1, hw1⟩
  have hm1out := (updMarkers_frame hm1).2.2
  by_cases he1 : m1.isexcluded = true
  · -- the first run is inside an excluded scope: the line is preserved
    -- and the second run processes the identical line
    obtain ⟨hinv1, hinv2, hinv3, hinv4⟩ := hinv
    have hcond1 : (!m1.isexcluded && myisam_re_search l) = false := by
      rw [he1]; rfl
    rw [writeLine_keep hcond1] at hw1
    cases hw1
    cases hdb : database_re_search l with
    | some N =>
      have hm1f := updMarkers_db_fields hdb hm1
      have hcn : E.contains (upStr N) = true := by rw [← hm1f.2]; exact he1
      have hm2 := updMarkers_db (E := E) (s := s2) hdb
      refine ⟨l, _, by simp [hm1out],
        step_keep hm2 (by
          show (!(E.contains (upStr N)) && myisam_re_search l) = false
          rw [hcn]
          rfl),
        by simp, by simp, by simp, ?_⟩
      unfold SimInv
      refine ⟨fun _ => ⟨hcn, hm1f.1.symm⟩, ?_, ?_, ?_⟩
      · simp [hm1f.1]
      · intro d hd
        simp [hm1f.1] at hd
        subst hd
        exact hm1f.2
      · intro d hd
        simp at hd
        subst hd
        rfl
    | none =>
      cases htb : table_re_search l with
      | some T =>
        rcases updMarkers_tb_fields hdb htb hm1 with ⟨d1, hs1db, hm1db, hm1exc⟩
        have hcd : E.contains (upStr d1) = true := by rw [← hm1exc]; exact he1
        have hs1exc : s1.isexcluded = true := by
          rw [hinv3 d1 hs1db]
          exact hcd
        obtain ⟨hs2exc, hs2db⟩ := hinv1 hs1exc
        rw [hs1db] at hs2db
        have hm2 := updMarkers_tb_some (E := E) hdb htb hs2db
        refine ⟨l, _, by simp [hm1out],
          step_keep hm2 (by
            show (!(E.contains (upStr d1)) && myisam_re_search l) = false
            rw [hcd]
            rfl),
          by simp, by simp, by simp, ?_⟩
        unfold SimInv
        refine ⟨fun _ => ⟨hcd, by simp [hs2db, hm1db]⟩, ?_, ?_, ?_⟩
        · simp [hs2db, hm1db]
        · intro d hd
          simp [hm1db] at hd
          subst hd
          exact hm1exc
        · intro d hd
          simp [hs2db] at hd
          subst hd
          rfl
      | none =>
        have hm1s : m1 = s1 := by
          have hu := updMarkers_none_none (E := E) (s := s1) hdb htb
          rw [hm1] at hu
          exact Option.some.inj hu
        subst hm1s
        obtain ⟨hs2exc, hs2db⟩ := hinv1 he1
        have hm2 := updMarkers_none_none (E := E) (s := s2) hdb htb
        refine ⟨l, _, by simp [hm1out],
          step_keep hm2 (by rw [hs2exc]; rfl),
          by simp, by simp, by simp, ?_⟩
        unfold SimInv
        refine ⟨fun _ => ⟨hs2exc, hs2db⟩, ?_, ?_, ?_⟩
        · simpa using hinv2
        · intro d hd
          exact hinv3 d hd
        · intro d hd
          exact hinv4 d hd
  · -- the first run is not excluded after the marker phase: whatever it
    -- writes carries no engine token, and the second run preserves it
    have hexcf : m1.isexcluded = false := by simpa using he1
    by_cases hsr : myisam_re_search l = true
    · have hcond1 : (!m1.isexcluded && myisam_re_search l) = true := by
        rw [hexcf, hsr]; rfl
      cases ht : m1.table with
      | none => rw [writeLine_crash hcond1 ht] at hw1; exact absurd hw1 (by simp)
      | some tv =>
        rw [writeLine_sub hcond1 ht] at hw1
        cases hw1
        rcases sim_step_keep2 hm1 hexcf (search_sub l) (db_search_iso l)
          (tb_search_iso l) hinv with ⟨s2', hstep2, hout2, hch2, hpre2, hinv'⟩
        exact ⟨myisam_re_sub l, s2', by simp [hm1out], hstep2, hout2, hch2,
          hpre2, SimInv_congr hinv' rfl rfl⟩
    · have hsrf : myisam_re_search l = false := by simpa using hsr
      have hcond1 : (!m1.isexcluded && myisam_re_search l) = false := by
        rw [hsrf]
        simp
      rw [writeLine_keep hcond1] at hw1
      cases hw1
      rcases sim_step_keep2 hm1 hexcf hsrf rfl rfl hinv with
        ⟨s2', hstep2, hout2, hch2, hpre2, hinv'⟩
      exact ⟨l, s2', by simp [hm1out], hstep2, hout2, hch2, hpre2,
        SimInv_congr hinv' rfl rfl⟩

theorem sim_run {E : List (List Char)} {L : List (List Char)} {s1 s2 s1f : PState}
    (h : runLines E s1 L = some s1f) (hinv : SimInv E s1 s2) :
    ∃ ys s2f, s1f.out = s1.out ++ ys ∧ runLines E s2 ys = some s2f ∧
      s2f.out = s2.out ++ ys ∧ s2f.changed = s2.changed ∧
      s2f.preserved = s2.preserved + ys.length ∧ SimInv E s1f s2f := by
  induction L generalizing s1 s2 with
  | nil =>
    cases h
    exact ⟨[], s2, by simp, rfl, by simp, rfl, by simp, hinv⟩
  | cons l ls ih =>
    rw [runLines] at h
    rcases Option.bind_eq_some.mp h with ⟨s1m, hstep1, hrest⟩
    rcases sim_step hstep1 hinv with ⟨y, s2m, hy1, hstep2, hy2, hych, hypre, hinv'⟩
    rcases ih hrest hinv' with ⟨ys, s2f, hys1, hrun2, hys2, hch, hpre, hinvf⟩
    refine ⟨y :: ys, s2f, ?_, ?_, ?_, ?_, ?_, hinvf⟩
    · rw [hys1, hy1]
      simp
    · rw [runLines, hstep2, Option.some_bind]
      exact hrun2
    · rw [hys2, hy2]
      simp
    · rw [hch, hych]
    · rw [hpre, hypre]
      simp
      omega

/-- Claim C4: the transform is idempotent — feeding the output of a
completed run back through ProcessFiles with the same exclusion set
completes, reproduces the output unchanged, changes zero lines, and
reports the same summary count. -/
theorem claim_C4 (E lines : List (List Char)) (s : PState) (n : Nat)
    (h : ProcessFiles E lines = some (s, n)) :
    ∃ s2, ProcessFiles E s.out = some (s2, n) ∧ s2.out = s.out ∧
      s2.changed = 0 := by
  unfold ProcessFiles at h ⊢
  rcases Option.bind_eq_some.mp h with ⟨sf, hrun, hsum⟩
  have hns : s = sf ∧ ∃ m, lines.length = m + 1 ∧ n = m + 1 := by
    cases hlen : lines.length with
    | zero => rw [hlen] at hsum; exact absurd hsum (by simp)
    | succ m =>
      rw [hlen] at hsum
      simp at hsum
      exact ⟨hsum.1.symm, m, rfl, hsum.2.symm⟩
  obtain ⟨rfl, m, hlen, hn⟩ := hns
  have hinv0 : SimInv E initState initState := by
    unfold SimInv
    refine ⟨fun _ => ⟨rfl, rfl⟩, Iff.rfl, ?_, ?_⟩
    · intro d hd
      simp [initState] at hd
    · intro d hd
      simp [initState] at hd
  rcases sim_run hrun hinv0 with ⟨ys, s2f, hys, hrun2, hout2, hch2, -, -⟩
  have hys' : s.out = ys := by simpa [initState] using hys
  have hout2' : s2f.out = ys := by simpa [initState] using hout2
  have holen : s.out.length = lines.length := by
    have hc := (runLines_counters hrun).2
    simp [initState] at hc
    omega
  have hyl : ys.length = m + 1 := by
    rw [← hys', holen, hlen]
  refine ⟨s2f, ?_, by rw [hout2', hys'], by rw [hch2]; rfl⟩
  rw [hys', hrun2, Option.some_bind, hyl, hn]

/-- Witness for claim C4 at a concrete completed run. -/
theorem claim_C4_witness :
    ∃ s2, ProcessFiles defaultExcluded
        (⟨some "mysql".toList, true, none, 0, 2, scenarioBLines⟩ : PState).out =
        some (s2, 2) ∧
      s2.out =
        (⟨some "mysql".toList, true, none, 0, 2, scenarioBLines⟩ : PState).out ∧
      s2.changed = 0 :=
  claim_C4 defaultExcluded scenarioBLines
    ⟨some "mysql".toList, true, none, 0, 2, scenarioBLines⟩ 2 (by decide)
